import Mathlib

/-!
# The growable `List<T>` of `src/List.cpp`

A shallow embedding of the template class `List<T>` and of
`ListMemoryBoundsException`, and the properties of the specification checked
against it.

## Memory model

The class manages a raw block of memory through the pointer member `values`,
so the embedding passes an explicit heap:

* a pointer `T*` is `Option Nat`: `none` is `nullptr`, `some a` is the address
  of a block handed out by `new T[n]`;
* `Heap.len a = some n` says that `a` is the address of a live block of `n`
  slots; `Heap.cell a i` is the content found at offset `i` from address `a`;
* `new T[n]` throws `std::bad_array_new_length` for `n < 0`; otherwise it hands
  out the address `Heap.next`, which was never handed out before (memory is
  taken to be sufficient); `delete[]` ends the life of a block;
* `p[i]` is read with `Heap.rd` and assigned with `Heap.wr`.  Every loop returns,
  next to the heap it produces, the list of offsets at which it read its source
  buffer.

## Reads outside a block

For a list that satisfies the class invariant, the only read the source performs
outside the live range `[0, size)` of a buffer is `values[-1]`, in the shift loop
of `prepend`; that slot lies outside the block.  What such a read does depends on
the element type, so the embedding asks the element type (`Elem.trivial`):

* for a trivially copyable type such as `int` the read yields whatever the
  memory holds, and the loop carries on;
* for a class type such as `std::string` the copy assignment from memory that
  holds no object ends the call there (`Exit.crashed`: a segmentation fault or an
  exception out of the copy).

## Integers

The members `size` and `allocationSize` and all indices are C++ `int`s.  They are
embedded as `Int`, and the results of `2 * allocationSize`, `size + list.size` and
`size++` are wrapped to 32 bits (`wrapInt`): the two's-complement value that the
machine computes where the result leaves `int`.  The loop counters stay between
`-1` and a member, so their arithmetic needs no wrapping.

## Calls

A call returns a `Ret`: the heap after the call, the list object it worked on
(`*this`, the object under construction, or the list that `concatenate` returns)
and how the call ended (`Exit`).  When the call did not return, heap and list are
as the exception or the crash left them.
-/

namespace ListADT

/-! ## Heap -/

/-- A pointer `T*`: `none` is `nullptr`, `some a` the address of a block. -/
abbrev Ptr := Option Nat

/-- The heap: `next` is the first address `new` has not handed out yet,
`len a = some n` when `a` is the address of a live block of `n` slots, and
`cell a i` is the content at offset `i` from address `a`. -/
structure Heap (T : Type) where
  next : Nat
  len : Nat → Option Int
  cell : Nat → Int → T

variable {T : Type}

/-- The block that a successful `new T[n]` hands out: `n` slots at a fresh address;
the slots are not initialised, they hold whatever the memory held. -/
def Heap.alloc (h : Heap T) (n : Int) : Heap T × Ptr :=
  ({ next := h.next + 1,
     len := fun a => if a = h.next then some n else h.len a,
     cell := h.cell },
   some h.next)

/-- The expression `new T[n]`: `none` stands for the exception
`std::bad_array_new_length`, thrown for `n < 0`. -/
def Heap.new (h : Heap T) (n : Int) : Option (Heap T × Ptr) :=
  if n < 0 then none else some (h.alloc n)

/-- The statement `delete[] p`: the block at `p` is no longer live; no effect on
`nullptr`. -/
def Heap.delete (h : Heap T) (p : Ptr) : Heap T :=
  match p with
  | none => h
  | some a => { h with len := fun b => if b = a then none else h.len b }

/-- The value of `p[i]`.  Through `nullptr` nothing can be read; the model then
yields `default`. -/
def Heap.rd [Inhabited T] (h : Heap T) (p : Ptr) (i : Int) : T :=
  match p with
  | none => default
  | some a => h.cell a i

/-- The assignment `p[i] = v`. -/
def Heap.wr (h : Heap T) (p : Ptr) (i : Int) (v : T) : Heap T :=
  match p with
  | none => h
  | some a => { h with cell := fun b j => if b = a ∧ j = i then v else h.cell b j }

/-- Whether `p[i]` is a slot of a live block: `p` is the address of a live block of
`n` slots and `0 ≤ i < n`. -/
def Heap.inBlock (h : Heap T) (p : Ptr) (i : Int) : Bool :=
  match p with
  | none => false
  | some a =>
    match h.len a with
    | none => false
    | some n => decide (0 ≤ i ∧ i < n)

/-! ## The type `int` -/

/-- The largest `int`, `2 ^ 31 - 1`. -/
def INT_MAX : Int := 2147483647

/-- The `int` that a 32-bit two's-complement machine keeps of an integer result. -/
def wrapInt (x : Int) : Int :=
  (x + 2147483648) % 4294967296 - 2147483648

/-! ## The class `List<T>` -/

/-- Modelled from the spec: the constant `INITIAL_ALLOCATION_SIZE` is declared in
`List.hpp`, which is not among the sources; the specification gives the fixed
initial capacity as 10. -/
def INITIAL_ALLOCATION_SIZE : Int := 10

/-- The data members of `List<T>`: `int size`, `int allocationSize`, `T* values`.
(The source calls the class `List`.) -/
structure CList where
  size : Int
  allocationSize : Int
  values : Ptr
deriving DecidableEq, Repr

/-- The exception class `ListMemoryBoundsException`, with its member `message`. -/
structure ListMemoryBoundsException where
  message : String
deriving DecidableEq, Repr

/-- The member `ListMemoryBoundsException::what()`. -/
def ListMemoryBoundsException.what (e : ListMemoryBoundsException) : String :=
  e.message

/-- How a call ended: it returned, `new T[n]` threw `std::bad_array_new_length`, or
the copy of an element from memory that holds no object ended it. -/
inductive Exit where
  | returned
  | badArrayNewLength
  | crashed
deriving DecidableEq, Repr

/-- The outcome of a call: the heap after it, the list object it worked on, and how
it ended. -/
structure Ret (T : Type) where
  heap : Heap T
  list : CList
  exit : Exit

/-- What the embedding asks of the element type: `trivial` says whether it is
trivially copyable, so that reading memory that holds no object of the type just
yields a value.  The source instantiates the template for `int` and `string`. -/
class Elem (T : Type) where
  trivial : Bool

/-- The element type `int` of `template class List<int>`. -/
instance instElemInt : Elem Int := ⟨true⟩

/-- The element type `string` of `template class List<string>`. -/
instance instElemString : Elem String := ⟨false⟩

/-- The default constructor `List<T>::List()`. -/
def ctorDefault : CList :=
  { size := 0, allocationSize := 0, values := none }

/-- The accessor `List<T>::getSize()`. -/
def getSize (l : CList) : Int := l.size

/-- The accessor `List<T>::getAllocationSize()`. -/
def getAllocationSize (l : CList) : Int := l.allocationSize

/-- The loop of `List<T>::str()`:
`for (index = 0; index < size; index++) { out << values[index]; if (index == size - 1) out << " "; else out << ", "; }`.
Returns the stream content and the offsets read. -/
def strLoop [Inhabited T] [ToString T] (h : Heap T) (l : CList) (out : String) (index : Int) :
    String × List Int :=
  if index < l.size then
    let out1 := out ++ toString (h.rd l.values index)
    let out2 := if index = l.size - 1 then out1 ++ " " else out1 ++ ", "
    let r := strLoop h l out2 (index + 1)
    (r.1, index :: r.2)
  else (out, [])
termination_by (l.size - index).toNat
decreasing_by omega

/-- The member `List<T>::str()`. -/
def str [Inhabited T] [ToString T] (h : Heap T) (l : CList) : String :=
  let out := "<list> size: " ++ toString l.size ++ " allocationSize: " ++
    toString l.allocationSize ++ " [ "
  (strLoop h l out 0).1 ++ "]"

/-- The loop of `List<T>::operator==`:
`for (index = 0; index < size; index++) if (values[index] != rhs.values[index]) return false;`
followed by `return true`.  Returns the result and the offsets read (each one in
both buffers). -/
def eqLoop [Inhabited T] [BEq T] (h : Heap T) (values rhsValues : Ptr) (size index : Int) :
    Bool × List Int :=
  if index < size then
    if h.rd values index != h.rd rhsValues index then (false, [index])
    else
      let r := eqLoop h values rhsValues size (index + 1)
      (r.1, index :: r.2)
  else (true, [])
termination_by (size - index).toNat
decreasing_by omega

/-- The member `List<T>::operator==(const List<T>& rhs)`. -/
def opEq [Inhabited T] [BEq T] (h : Heap T) (l rhs : CList) : Bool :=
  if l.size ≠ rhs.size then false
  else (eqLoop h l.values rhs.values l.size 0).1

/-- The member `List<T>::operator[](int index)`.  The reference `values[index]` it
returns is embedded as the value of that slot; the `throw` is `Except.error`. -/
def opIndex [Inhabited T] (h : Heap T) (l : CList) (index : Int) :
    Except ListMemoryBoundsException T :=
  if index < 0 ∨ index ≥ l.size then
    Except.error ⟨"Error: illegal bounds access, list size: " ++ toString l.size ++
      " tried to access index address: " ++ toString index⟩
  else Except.ok (h.rd l.values index)

/-- The copying loops of the source,
`for (index = 0; index < size; index++) dst[index + off] = src[index];`.
The offset `off` is `0` in the two constructors, in `growListIfNeeded` and in the
first loop of `concatenate`, and `this->size` in the second loop of `concatenate`.
Returns the heap and the offsets of `src` read. -/
def copyLoop [Inhabited T] (h : Heap T) (dst : Ptr) (off : Int) (src : Ptr) (size index : Int) :
    Heap T × List Int :=
  if index < size then
    let r := copyLoop (h.wr dst (index + off) (h.rd src index)) dst off src size (index + 1)
    (r.1, index :: r.2)
  else (h, [])
termination_by (size - index).toNat
decreasing_by omega

/-- The constructor `List<T>::List(int size, T values[])`.  The members `size` and
`allocationSize` are assigned before `new T[allocationSize]`, which throws for a
negative size; the object then does not come to exist. -/
def ctorArray [Inhabited T] (h : Heap T) (size : Int) (values : Ptr) : Ret T :=
  match h.new size with
  | none =>
    { heap := h, list := { size := size, allocationSize := size, values := none },
      exit := Exit.badArrayNewLength }
  | some a =>
    { heap := (copyLoop a.1 a.2 0 values size 0).1,
      list := { size := size, allocationSize := size, values := a.2 },
      exit := Exit.returned }

/-- The private member `List<T>::growListIfNeeded()`.  The member `allocationSize`
is assigned before `new T[allocationSize]`: when that throws, the list keeps the new
`allocationSize` with its old buffer. -/
def growListIfNeeded [Inhabited T] (h : Heap T) (l : CList) : Ret T :=
  if l.size < l.allocationSize then { heap := h, list := l, exit := Exit.returned }
  else
    let allocationSize :=
      if l.allocationSize = 0 then INITIAL_ALLOCATION_SIZE else wrapInt (2 * l.allocationSize)
    match h.new allocationSize with
    | none =>
      { heap := h, list := { l with allocationSize := allocationSize },
        exit := Exit.badArrayNewLength }
    | some a =>
      { heap := ((copyLoop a.1 a.2 0 l.values l.size 0).1).delete l.values,
        list := { size := l.size, allocationSize := allocationSize, values := a.2 },
        exit := Exit.returned }

/-- The copy constructor `List<T>::List(const List<T>& list)`. -/
def ctorCopy [Inhabited T] (h : Heap T) (list : CList) : Ret T :=
  match h.new list.allocationSize with
  | none =>
    { heap := h,
      list := { size := list.size, allocationSize := list.allocationSize, values := none },
      exit := Exit.badArrayNewLength }
  | some a =>
    { heap := (copyLoop a.1 a.2 0 list.values list.size 0).1,
      list := { size := list.size, allocationSize := list.allocationSize, values := a.2 },
      exit := Exit.returned }

/-- The destructor `List<T>::~List()`. -/
def dtor (h : Heap T) (l : CList) : Heap T :=
  if l.values ≠ none then h.delete l.values else h

/-- The member `List<T>::append(const T value)`.  An exception out of
`growListIfNeeded` ends the call. -/
def append [Inhabited T] (h : Heap T) (l : CList) (value : T) : Ret T :=
  let g := growListIfNeeded h l
  if g.exit = Exit.returned then
    { heap := g.heap.wr g.list.values g.list.size value,
      list := { g.list with size := wrapInt (g.list.size + 1) },
      exit := Exit.returned }
  else g

/-- The member `List<T>::operator>>(const T value)`. -/
def opShiftRight [Inhabited T] (h : Heap T) (l : CList) (value : T) : Ret T :=
  append h l value

/-- The loop of `List<T>::prepend`:
`for (int i = size; i >= 0; i--) values[i] = values[i - 1];`.
Returns the heap, the offsets of `values` read, and whether the loop ended the call:
it does when `values[i - 1]` is no slot of a live block and the element type is not
trivially copyable. -/
def shiftLoop [Inhabited T] [Elem T] (h : Heap T) (values : Ptr) (i : Int) :
    Heap T × List Int × Bool :=
  if i ≥ 0 then
    if Elem.trivial T || h.inBlock values (i - 1) then
      let r := shiftLoop (h.wr values i (h.rd values (i - 1))) values (i - 1)
      (r.1, (i - 1) :: r.2.1, r.2.2)
    else (h, [i - 1], true)
  else (h, [], false)
termination_by (i + 1).toNat
decreasing_by omega

/-- The member `List<T>::prepend(const T value)`. -/
def prepend [Inhabited T] [Elem T] (h : Heap T) (l : CList) (value : T) : Ret T :=
  let g := growListIfNeeded h l
  if g.exit = Exit.returned then
    let s := shiftLoop g.heap g.list.values g.list.size
    if s.2.2 then { heap := s.1, list := g.list, exit := Exit.crashed }
    else
      { heap := s.1.wr g.list.values 0 value,
        list := { g.list with size := wrapInt (g.list.size + 1) },
        exit := Exit.returned }
  else g

/-- The offsets of `values` that the shift loop of `prepend` reads, in order; none
if `growListIfNeeded` throws. -/
def prependShiftReads [Inhabited T] [Elem T] (h : Heap T) (l : CList) : List Int :=
  let g := growListIfNeeded h l
  if g.exit = Exit.returned then (shiftLoop g.heap g.list.values g.list.size).2.1 else []

/-- The member `List<T>::operator<<(const T value)`. -/
def opShiftLeft [Inhabited T] [Elem T] (h : Heap T) (l : CList) (value : T) : Ret T :=
  prepend h l value

/-- The member `List<T>::concatenate(const List<T>& list) const`.  The list object
allocated with `new List(...)` is returned by value.  When
`new T[concatenatedSize]` throws, no list is returned: the outcome then repeats
`*this`. -/
def concatenate [Inhabited T] (h : Heap T) (l list : CList) : Ret T :=
  let concatenatedSize := wrapInt (l.size + list.size)
  match h.new concatenatedSize with
  | none => { heap := h, list := l, exit := Exit.badArrayNewLength }
  | some a =>
    let h1 := (copyLoop a.1 a.2 0 l.values l.size 0).1
    let h2 := (copyLoop h1 a.2 l.size list.values list.size 0).1
    let c := ctorArray h2 concatenatedSize a.2
    if c.exit = Exit.returned then
      { heap := c.heap.delete a.2, list := c.list, exit := Exit.returned }
    else c

/-- The member `List<T>::operator+(const List<T>& list)`. -/
def opPlus [Inhabited T] (h : Heap T) (l list : CList) : Ret T :=
  concatenate h l list

/-! ## The class invariant and the abstract view -/

/-- The class invariant of `List<T>`: `0 ≤ size ≤ allocationSize`, and `values` is
`nullptr` with no capacity, or the address of a live block of `allocationSize`
slots that `new` has handed out. -/
def Valid (h : Heap T) (l : CList) : Prop :=
  0 ≤ l.size ∧ l.size ≤ l.allocationSize ∧
    match l.values with
    | none => l.allocationSize = 0
    | some a => a < h.next ∧ h.len a = some l.allocationSize

/-- Growing the list does not leave the type `int`: the member `allocationSize` is an
`int`, and either there is room left (`size < allocationSize`, nothing is computed)
or `2 * allocationSize` is at most `INT_MAX`. -/
def GrowFits (l : CList) : Prop :=
  l.allocationSize ≤ INT_MAX ∧ (l.size < l.allocationSize ∨ 2 * l.allocationSize ≤ INT_MAX)

/-- The capacity that `growListIfNeeded` computes for a full list:
`INITIAL_ALLOCATION_SIZE` from 0, and otherwise the `int` that `2 * allocationSize`
leaves. -/
def grownCapacity (l : CList) : Int :=
  if l.allocationSize = 0 then INITIAL_ALLOCATION_SIZE else wrapInt (2 * l.allocationSize)

/-- The list `l` holds exactly the values `xs`, in order, in its slots
`0, ..., size - 1`. -/
def Holds [Inhabited T] (h : Heap T) (l : CList) (xs : List T) : Prop :=
  l.size = xs.length ∧ ∀ i : Nat, i < xs.length → xs[i]? = some (h.rd l.values i)

/-- The state in which a sequence of calls on a list starts. -/
def start (h : Heap T) (l : CList) : Ret T :=
  { heap := h, list := l, exit := Exit.returned }

/-- Appending the values of a sequence one after the other, first to last; a call
that does not return ends the sequence. -/
def appendAll [Inhabited T] (s : Ret T) : List T → Ret T
  | [] => s
  | x :: xs => appendAll (if s.exit = Exit.returned then append s.heap s.list x else s) xs

/-- A call of one of the two inserting members. -/
inductive Op (T : Type) where
  | append (value : T)
  | prepend (value : T)

/-- The effect of one call on the heap and the list object; nothing is called after
a call that did not return. -/
def applyOp [Inhabited T] [Elem T] (s : Ret T) (o : Op T) : Ret T :=
  if s.exit = Exit.returned then
    match o with
    | Op.append v => append s.heap s.list v
    | Op.prepend v => prepend s.heap s.list v
  else s

/-- The effect of a sequence of calls, first to last. -/
def runOps [Inhabited T] [Elem T] (s : Ret T) (ops : List (Op T)) : Ret T :=
  ops.foldl applyOp s

/-- The elements of the list, slot `0` to slot `size - 1`. -/
def contents [Inhabited T] (h : Heap T) (l : CList) : List T :=
  (List.range l.size.toNat).map (fun (i : Nat) => h.rd l.values (i : Int))

/-- The pointer `p` gives access to at least `n` values: it is the address of a
live block of at least `n` slots that `new` has handed out (or `n ≤ 0`). -/
def HasSlots (h : Heap T) (p : Ptr) (n : Int) : Prop :=
  match p with
  | none => n ≤ 0
  | some a => a < h.next ∧ ∃ m, h.len a = some m ∧ n ≤ m

/-- The predicate `0 <= size <= allocationSize` on the data members alone. -/
def SizeInv (l : CList) : Prop :=
  0 ≤ l.size ∧ l.size ≤ l.allocationSize

/-- The number of insertions into a default-constructed list up to which no
`2 * allocationSize` overflows `int`: `10 * 2 ^ 27`. -/
def INSERT_LIMIT : Nat := 1342177280

/-- The capacity reached by inserting is `10 * 2 ^ k`, it holds the `size ≥ 1`
elements, and half of it would not (`k = 0` or `10 * 2 ^ (k - 1) < size`). -/
def CapInv (l : CList) : Prop :=
  ∃ k : Nat, l.allocationSize = 10 * 2 ^ k ∧ 1 ≤ l.size ∧ l.size ≤ l.allocationSize ∧
    (k = 0 ∨ (10 : Int) * 2 ^ (k - 1) < l.size)

/-- What holds along a sequence of insertions into a default-constructed list, as
long as every call returns: the class invariant, the values `xs` inserted so far, and
a capacity that is 0 for the empty list and of the form `10 * 2 ^ k` afterwards. -/
def InsertInv [Inhabited T] (s : Ret T) (xs : List T) : Prop :=
  s.exit = Exit.returned ∧ Valid s.heap s.list ∧ Holds s.heap s.list xs ∧
    ((s.list.size = 0 ∧ s.list.allocationSize = 0) ∨ CapInv s.list)

/-- The expression `(a.concatenate(b)).concatenate(c) == a.concatenate(b.concatenate(c))`,
evaluated operand by operand; `none` when one of the four calls throws. -/
def concatAssocTest [Inhabited T] [BEq T] (h : Heap T) (a b c : CList) : Option Bool :=
  let r1 := concatenate h a b
  if r1.exit = Exit.returned then
    let r2 := concatenate r1.heap r1.list c
    if r2.exit = Exit.returned then
      let r3 := concatenate r2.heap b c
      if r3.exit = Exit.returned then
        let r4 := concatenate r3.heap a r3.list
        if r4.exit = Exit.returned then some (opEq r4.heap r2.list r4.list) else none
      else none
    else none
  else none

/-- The expression `a.concatenate(e) == a` for the default-constructed list `e`;
`none` when the call throws. -/
def concatRightIdentityTest [Inhabited T] [BEq T] (h : Heap T) (a : CList) : Option Bool :=
  let r := concatenate h a ctorDefault
  if r.exit = Exit.returned then some (opEq r.heap r.list a) else none

/-- The expression `e.concatenate(a) == a` for the default-constructed list `e`;
`none` when the call throws. -/
def concatLeftIdentityTest [Inhabited T] [BEq T] (h : Heap T) (a : CList) : Option Bool :=
  let r := concatenate h ctorDefault a
  if r.exit = Exit.returned then some (opEq r.heap r.list a) else none

/-! ## The offsets read by each operation -/

/-- The offsets of `values` that `str()` reads. -/
def strReads [Inhabited T] [ToString T] (h : Heap T) (l : CList) : List Int :=
  (strLoop h l ("<list> size: " ++ toString l.size ++ " allocationSize: " ++
    toString l.allocationSize ++ " [ ") 0).2

/-- The offsets that `operator==` reads, each one in `values` and in `rhs.values`. -/
def opEqReads [Inhabited T] [BEq T] (h : Heap T) (l rhs : CList) : List Int :=
  if l.size ≠ rhs.size then []
  else (eqLoop h l.values rhs.values l.size 0).2

/-- The offsets of `list.values` that the copy constructor reads. -/
def ctorCopyReads [Inhabited T] (h : Heap T) (list : CList) : List Int :=
  match h.new list.allocationSize with
  | none => []
  | some a => (copyLoop a.1 a.2 0 list.values list.size 0).2

/-- The offsets of `values` that `growListIfNeeded` reads. -/
def growReads [Inhabited T] (h : Heap T) (l : CList) : List Int :=
  if l.size < l.allocationSize then []
  else
    let allocationSize :=
      if l.allocationSize = 0 then INITIAL_ALLOCATION_SIZE else wrapInt (2 * l.allocationSize)
    match h.new allocationSize with
    | none => []
    | some a => (copyLoop a.1 a.2 0 l.values l.size 0).2

/-- The offsets of `values` that `append` reads: those of `growListIfNeeded`. -/
def appendReads [Inhabited T] (h : Heap T) (l : CList) : List Int :=
  growReads h l

/-- The offsets of `values` that `prepend` reads: those of `growListIfNeeded`, then
those of the shift loop. -/
def prependReads [Inhabited T] [Elem T] (h : Heap T) (l : CList) : List Int :=
  growReads h l ++ prependShiftReads h l

/-- The offsets that `concatenate` reads in `this->values` and in `list.values`. -/
def concatenateReads [Inhabited T] (h : Heap T) (l list : CList) : List Int × List Int :=
  match h.new (wrapInt (l.size + list.size)) with
  | none => ([], [])
  | some a =>
    let r1 := copyLoop a.1 a.2 0 l.values l.size 0
    (r1.2, (copyLoop r1.1 a.2 l.size list.values list.size 0).2)

/-! ## Concrete heaps and lists used to instantiate the statements -/

/-- A heap of `int`s in which nothing has been allocated. -/
def heap0 : Heap Int :=
  { next := 0, len := fun _ => none, cell := fun _ _ => 0 }

/-- A heap of `int`s with two live blocks: two slots holding `4, 6` at address 0
and one slot holding `9` at address 1. -/
def heap1 : Heap Int :=
  { next := 2,
    len := fun a => if a = 0 then some 2 else if a = 1 then some 1 else none,
    cell := fun a i =>
      if a = 0 ∧ i = 0 then 4 else if a = 0 ∧ i = 1 then 6 else if a = 1 ∧ i = 0 then 9 else 0 }

/-- The full list `[4, 6]` of capacity 2 whose buffer is the first block of `heap1`. -/
def list1 : CList :=
  { size := 2, allocationSize := 2, values := some 0 }

/-- The full list `[9]` of capacity 1 whose buffer is the second block of `heap1`. -/
def list9 : CList :=
  { size := 1, allocationSize := 1, values := some 1 }

/-- A heap of `int`s with one live block of ten slots, the first three holding
`1, 3, 7`. -/
def heap2 : Heap Int :=
  { next := 1,
    len := fun a => if a = 0 then some 10 else none,
    cell := fun a i =>
      if a = 0 ∧ i = 0 then 1 else if a = 0 ∧ i = 1 then 3 else if a = 0 ∧ i = 2 then 7 else 0 }

/-- The list `[1, 3, 7]` of capacity 10 whose buffer is the block of `heap2`. -/
def list2 : CList :=
  { size := 3, allocationSize := 10, values := some 0 }

/-- A heap of `int`s with one live block of `2 ^ 30` slots, all holding `0`. -/
def heapBig : Heap Int :=
  { next := 1,
    len := fun a => if a = 0 then some 1073741824 else none,
    cell := fun _ _ => 0 }

/-- The full list of `2 ^ 30` zeros whose buffer is the block of `heapBig`. -/
def listBig : CList :=
  { size := 1073741824, allocationSize := 1073741824, values := some 0 }

/-- A heap of `string`s in which nothing has been allocated. -/
def heapStr : Heap String :=
  { next := 0, len := fun _ => none, cell := fun _ _ => "" }

/-- The scenario of the specification: starting from the empty list, `append(3)`,
`append(7)`, `prepend(1)`. -/
def scenarioList : Ret Int :=
  runOps (start heap0 ctorDefault) [Op.append 3, Op.append 7, Op.prepend 1]

/-- The one-element list `[9]`, built next to the list of the scenario. -/
def scenarioNine : Ret Int :=
  append scenarioList.heap ctorDefault 9

/-- The list of the scenario concatenated with the list `[9]`. -/
def scenarioConcat : Ret Int :=
  concatenate scenarioNine.heap scenarioList.list scenarioNine.list

/-! ## Heap and loop lemmas -/

@[simp] theorem Heap.wr_next (h : Heap T) (p : Ptr) (i : Int) (v : T) :
    (h.wr p i v).next = h.next := by
  cases p <;> rfl

@[simp] theorem Heap.wr_len (h : Heap T) (p : Ptr) (i : Int) (v : T) :
    (h.wr p i v).len = h.len := by
  cases p <;> rfl

@[simp] theorem Heap.wr_inBlock (h : Heap T) (p q : Ptr) (i j : Int) (v : T) :
    (h.wr p i v).inBlock q j = h.inBlock q j := by
  cases q <;> simp [Heap.inBlock]

theorem Heap.inBlock_neg (h : Heap T) (p : Ptr) (i : Int) (hi : i < 0) :
    h.inBlock p i = false := by
  cases p with
  | none => rfl
  | some a =>
    simp only [Heap.inBlock]
    cases h.len a with
    | none => rfl
    | some n =>
      have : ¬ (0 ≤ i ∧ i < n) := by omega
      simp [this]

theorem Heap.inBlock_of_len (h : Heap T) (a : Nat) (n i : Int) (hl : h.len a = some n)
    (h0 : 0 ≤ i) (h1 : i < n) : h.inBlock (some a) i = true := by
  simp [Heap.inBlock, hl, h0, h1]

theorem Heap.rd_wr [Inhabited T] (h : Heap T) (p q : Ptr) (i j : Int) (v : T) :
    (h.wr p i v).rd q j = if p = q ∧ p ≠ none ∧ j = i then v else h.rd q j := by
  cases p <;> cases q <;> simp [Heap.wr, Heap.rd]
  rename_i a b
  by_cases hab : b = a
  · subst hab; simp
  · have : ¬ a = b := fun e => hab e.symm
    simp [hab, this]

theorem Heap.rd_some [Inhabited T] (h : Heap T) (a : Nat) (i : Int) :
    h.rd (some a) i = h.cell a i := rfl

theorem Heap.wr_cell (h : Heap T) (p : Ptr) (i : Int) (v : T) (x : Nat) (j : Int) :
    (h.wr p i v).cell x j = if p = some x ∧ j = i then v else h.cell x j := by
  cases p with
  | none => simp [Heap.wr]
  | some a =>
    simp only [Heap.wr, Option.some.injEq]
    by_cases hax : x = a
    · subst hax; simp
    · have : ¬ a = x := fun e => hax e.symm
      simp [hax, this]

@[simp] theorem Heap.alloc_next (h : Heap T) (n : Int) : (h.alloc n).1.next = h.next + 1 := rfl

@[simp] theorem Heap.alloc_cell (h : Heap T) (n : Int) : (h.alloc n).1.cell = h.cell := rfl

@[simp] theorem Heap.alloc_ptr (h : Heap T) (n : Int) : (h.alloc n).2 = some h.next := rfl

theorem Heap.alloc_len (h : Heap T) (n : Int) (b : Nat) :
    (h.alloc n).1.len b = if b = h.next then some n else h.len b := rfl

@[simp] theorem Heap.alloc_rd [Inhabited T] (h : Heap T) (n : Int) (q : Ptr) (j : Int) :
    (h.alloc n).1.rd q j = h.rd q j := by
  cases q <;> rfl

theorem Heap.new_of_nonneg (h : Heap T) (n : Int) (hn : 0 ≤ n) :
    h.new n = some (h.alloc n) := by
  unfold Heap.new
  rw [if_neg (by omega)]

theorem Heap.new_of_neg (h : Heap T) (n : Int) (hn : n < 0) : h.new n = none := by
  unfold Heap.new
  rw [if_pos hn]

@[simp] theorem Heap.delete_next (h : Heap T) (p : Ptr) : (h.delete p).next = h.next := by
  cases p <;> rfl

@[simp] theorem Heap.delete_cell (h : Heap T) (p : Ptr) : (h.delete p).cell = h.cell := by
  cases p <;> rfl

theorem Heap.delete_len (h : Heap T) (p : Ptr) (b : Nat) :
    (h.delete p).len b = if p = some b then none else h.len b := by
  cases p with
  | none => simp [Heap.delete]
  | some a =>
    simp only [Heap.delete, Option.some.injEq]
    by_cases hab : b = a
    · subst hab; simp
    · have : ¬ a = b := fun e => hab e.symm
      simp [hab, this]

@[simp] theorem Heap.delete_rd [Inhabited T] (h : Heap T) (p q : Ptr) (j : Int) :
    (h.delete p).rd q j = h.rd q j := by
  cases q <;> simp [Heap.rd]

/-! ### 32-bit wrapping -/

theorem wrapInt_of_fits (x : Int) (h0 : -2147483648 ≤ x) (h1 : x ≤ INT_MAX) : wrapInt x = x := by
  unfold wrapInt
  unfold INT_MAX at h1
  omega

theorem wrapInt_le (x : Int) : wrapInt x ≤ INT_MAX := by
  unfold wrapInt INT_MAX
  omega

theorem wrapInt_neg_of_overflow (x : Int) (h0 : INT_MAX < x) (h1 : x ≤ 2 * INT_MAX) :
    wrapInt x < 0 := by
  unfold wrapInt
  unfold INT_MAX at h0 h1
  omega

theorem wrapInt_nonneg_iff (x : Int) (h0 : 0 ≤ x) (h1 : x ≤ 2 * INT_MAX) :
    0 ≤ wrapInt x ↔ x ≤ INT_MAX := by
  unfold wrapInt INT_MAX
  unfold INT_MAX at h1
  omega

/-! ### The copying loop -/

theorem copyLoop_next [Inhabited T] (h : Heap T) (dst : Ptr) (off : Int) (src : Ptr)
    (size index : Int) : (copyLoop h dst off src size index).1.next = h.next := by
  unfold copyLoop
  split
  · simp only []
    rw [copyLoop_next]; simp
  · rfl
termination_by (size - index).toNat
decreasing_by omega

theorem copyLoop_len [Inhabited T] (h : Heap T) (dst : Ptr) (off : Int) (src : Ptr)
    (size index : Int) : (copyLoop h dst off src size index).1.len = h.len := by
  unfold copyLoop
  split
  · simp only []
    rw [copyLoop_len]; simp
  · rfl
termination_by (size - index).toNat
decreasing_by omega

theorem copyLoop_rd [Inhabited T] (h : Heap T) (d : Nat) (off : Int) (src : Ptr) (size index : Int)
    (hne : src ≠ some d) (q : Ptr) (j : Int) :
    (copyLoop h (some d) off src size index).1.rd q j =
      if q = some d ∧ index + off ≤ j ∧ j < size + off then h.rd src (j - off)
      else h.rd q j := by
  unfold copyLoop
  split
  · rename_i hlt
    simp only []
    rw [copyLoop_rd _ _ _ _ _ _ hne]
    simp only [Heap.rd_wr]
    have hne2 : ¬ (some d = src) := fun e => hne e.symm
    by_cases hq : q = some d
    · subst hq
      by_cases hj : j = index + off
      · subst hj
        simp [hne2, hlt]
      · by_cases h1 : index + 1 + off ≤ j ∧ j < size + off
        · have h2 : index + off ≤ j ∧ j < size + off := ⟨by omega, h1.2⟩
          simp [h1, h2, hne2]
        · have h2 : ¬ (index + off ≤ j ∧ j < size + off) := by omega
          simp [h1, h2, hj]
    · have hq2 : ¬ (some d = q) := fun e => hq e.symm
      simp [hq, hq2]
  · rename_i hge
    have : ¬ (index + off ≤ j ∧ j < size + off) := by omega
    simp [this]
termination_by (size - index).toNat
decreasing_by omega

theorem copyLoop_cell [Inhabited T] (h : Heap T) (d : Nat) (off : Int) (src : Ptr)
    (size index : Int) (hne : src ≠ some d) (b : Nat) (j : Int) :
    (copyLoop h (some d) off src size index).1.cell b j =
      if b = d ∧ index + off ≤ j ∧ j < size + off then h.rd src (j - off)
      else h.cell b j := by
  have := copyLoop_rd h d off src size index hne (some b) j
  simpa [Heap.rd] using this

theorem copyLoop_reads [Inhabited T] (h : Heap T) (dst : Ptr) (off : Int) (src : Ptr)
    (size index : Int) :
    ∀ i ∈ (copyLoop h dst off src size index).2, index ≤ i ∧ i < size := by
  unfold copyLoop
  split
  · rename_i hlt
    intro i hi
    simp only [List.mem_cons] at hi
    rcases hi with e | hi
    · subst e; exact ⟨le_refl _, hlt⟩
    · have := copyLoop_reads _ dst off src size (index + 1) i hi
      omega
  · intro i hi
    simp at hi
termination_by (size - index).toNat
decreasing_by omega

/-! ### The shift loop of `prepend` -/

theorem shiftLoop_next [Inhabited T] [Elem T] (h : Heap T) (values : Ptr) (i : Int) :
    (shiftLoop h values i).1.next = h.next := by
  unfold shiftLoop
  split
  · split
    · simp only []
      rw [shiftLoop_next]; simp
    · rfl
  · rfl
termination_by (i + 1).toNat
decreasing_by omega

theorem shiftLoop_len [Inhabited T] [Elem T] (h : Heap T) (values : Ptr) (i : Int) :
    (shiftLoop h values i).1.len = h.len := by
  unfold shiftLoop
  split
  · split
    · simp only []
      rw [shiftLoop_len]; simp
    · rfl
  · rfl
termination_by (i + 1).toNat
decreasing_by omega

/-- The shift loop writes to no block but the one it shifts. -/
theorem shiftLoop_cell_other [Inhabited T] [Elem T] (h : Heap T) (p : Ptr) (i : Int) (x : Nat)
    (j : Int) (hp : p ≠ some x) : (shiftLoop h p i).1.cell x j = h.cell x j := by
  unfold shiftLoop
  split
  · split
    · simp only []
      rw [shiftLoop_cell_other _ _ _ _ _ hp, Heap.wr_cell]
      simp [hp]
    · rfl
  · rfl
termination_by (i + 1).toNat
decreasing_by omega

/-- For a trivially copyable element type the shift loop runs to its end. -/
theorem shiftLoop_runs [Inhabited T] [Elem T] (h : Heap T) (values : Ptr) (i : Int)
    (ht : Elem.trivial T = true) : (shiftLoop h values i).2.2 = false := by
  unfold shiftLoop
  split
  · simp only [ht, Bool.true_or, if_true]
    exact shiftLoop_runs _ values (i - 1) ht
  · rfl
termination_by (i + 1).toNat
decreasing_by omega

/-- The shift loop started at an index `i ≥ 0`, over slots `0, ..., i - 1` that it can
read, reads offset `-1`. -/
theorem shiftLoop_reads [Inhabited T] [Elem T] (h : Heap T) (values : Ptr) (i : Int)
    (hi : 0 ≤ i)
    (hr : ∀ j, 0 ≤ j → j < i → (Elem.trivial T || h.inBlock values j) = true) :
    (-1 : Int) ∈ (shiftLoop h values i).2.1 := by
  unfold shiftLoop
  simp only [ge_iff_le, hi, if_true]
  by_cases h0 : i = 0
  · subst h0
    split <;> simp
  · have hc := hr (i - 1) (by omega) (by omega)
    rw [if_pos hc]
    apply List.mem_cons_of_mem
    apply shiftLoop_reads _ values (i - 1) (by omega)
    intro j hj0 hj1
    rw [Heap.wr_inBlock]
    exact hr j hj0 (by omega)
termination_by (i + 1).toNat
decreasing_by omega

/-- For an element type that is not trivially copyable, the shift loop started at an
index `i ≥ 0`, over slots `0, ..., i - 1` of a live block, ends the call at
`values[-1]`. -/
theorem shiftLoop_crashes [Inhabited T] [Elem T] (h : Heap T) (values : Ptr) (i : Int)
    (ht : Elem.trivial T = false) (hi : 0 ≤ i)
    (hr : ∀ j, 0 ≤ j → j < i → h.inBlock values j = true) :
    (shiftLoop h values i).2.2 = true := by
  unfold shiftLoop
  simp only [ge_iff_le, hi, if_true, ht, Bool.false_or]
  by_cases h0 : i = 0
  · subst h0
    rw [Heap.inBlock_neg _ _ _ (by omega)]
    simp
  · have hc := hr (i - 1) (by omega) (by omega)
    rw [if_pos hc]
    apply shiftLoop_crashes _ values (i - 1) ht (by omega)
    intro j hj0 hj1
    rw [Heap.wr_inBlock]
    exact hr j hj0 (by omega)
termination_by (i + 1).toNat
decreasing_by omega

/-! ### The class invariant -/

theorem Valid.ne_next {h : Heap T} {l : CList} (hv : Valid h l) : l.values ≠ some h.next := by
  obtain ⟨_, _, hb⟩ := hv
  intro e
  rw [e] at hb
  exact absurd hb.1 (lt_irrefl _)

theorem Valid.ptr_lt {h : Heap T} {l : CList} (hv : Valid h l) :
    ∀ x, l.values = some x → x < h.next := by
  intro x hx
  have := hv.2.2
  rw [hx] at this
  exact this.1

theorem Valid.values_some {h : Heap T} {l : CList} (hv : Valid h l)
    (hpos : 0 < l.allocationSize) :
    ∃ a, l.values = some a ∧ a < h.next ∧ h.len a = some l.allocationSize := by
  obtain ⟨_, _, hb⟩ := hv
  cases hval : l.values with
  | none => rw [hval] at hb; simp only [] at hb; omega
  | some a => rw [hval] at hb; exact ⟨a, rfl, hb.1, hb.2⟩

/-- A list that satisfies the class invariant keeps satisfying it in a heap that
has only grown and in which the blocks handed out before are as live as they were. -/
theorem Valid.frame {h k : Heap T} {l : CList} (hv : Valid h l) (hn : h.next ≤ k.next)
    (hl : ∀ x, x < h.next → k.len x = h.len x) : Valid k l := by
  obtain ⟨h0, h1, hb⟩ := hv
  refine ⟨h0, h1, ?_⟩
  cases hval : l.values with
  | none => rw [hval] at hb; exact hb
  | some a =>
    rw [hval] at hb
    exact ⟨lt_of_lt_of_le hb.1 hn, by rw [hl a hb.1]; exact hb.2⟩

theorem Valid.sizeInv {h : Heap T} {l : CList} (hv : Valid h l) : SizeInv l :=
  ⟨hv.1, hv.2.1⟩

theorem valid_ctorDefault (h : Heap T) : Valid h ctorDefault :=
  ⟨le_refl _, le_refl _, rfl⟩

theorem valid_heap1_list1 : Valid heap1 list1 :=
  ⟨by decide, by decide, by decide, rfl⟩

theorem valid_heap1_list9 : Valid heap1 list9 :=
  ⟨by decide, by decide, by decide, rfl⟩

theorem valid_heapBig_listBig : Valid heapBig listBig :=
  ⟨by decide, by decide, by decide, rfl⟩

theorem growFits_list1 : GrowFits list1 :=
  ⟨by decide, Or.inr (by decide)⟩

theorem growFits_ctorDefault : GrowFits ctorDefault :=
  ⟨by decide, Or.inr (by decide)⟩

/-! ### `growListIfNeeded` -/

/-- The three ways through `growListIfNeeded`: room left, `new` throws, growth. -/
theorem growListIfNeeded_eq [Inhabited T] (h : Heap T) (l : CList) :
    growListIfNeeded h l =
      if l.size < l.allocationSize then { heap := h, list := l, exit := Exit.returned }
      else if grownCapacity l < 0 then
        { heap := h, list := { l with allocationSize := grownCapacity l },
          exit := Exit.badArrayNewLength }
      else
        { heap := ((copyLoop (h.alloc (grownCapacity l)).1 (some h.next) 0 l.values
            l.size 0).1).delete l.values,
          list := { size := l.size, allocationSize := grownCapacity l, values := some h.next },
          exit := Exit.returned } := by
  unfold growListIfNeeded
  split
  · rfl
  · show (match h.new (grownCapacity l) with
      | none => _
      | some a => _) = _
    by_cases hc : grownCapacity l < 0
    · rw [if_pos hc, Heap.new_of_neg _ _ hc]
      rfl
    · rw [if_neg hc, Heap.new_of_nonneg _ _ (by omega)]
      rfl

theorem growListIfNeeded_size [Inhabited T] (h : Heap T) (l : CList) :
    (growListIfNeeded h l).list.size = l.size := by
  rw [growListIfNeeded_eq]
  split
  · rfl
  · split <;> rfl

/-- The member `allocationSize` after `growListIfNeeded`, whether it returned or
threw. -/
theorem growListIfNeeded_allocationSize [Inhabited T] (h : Heap T) (l : CList) :
    (growListIfNeeded h l).list.allocationSize =
      if l.size < l.allocationSize then l.allocationSize else grownCapacity l := by
  rw [growListIfNeeded_eq]
  split
  · rfl
  · split <;> rfl

/-- When `growListIfNeeded` returns and when it throws. -/
theorem growListIfNeeded_exit [Inhabited T] (h : Heap T) (l : CList) :
    (growListIfNeeded h l).exit =
      if l.size < l.allocationSize then Exit.returned
      else if grownCapacity l < 0 then Exit.badArrayNewLength
      else Exit.returned := by
  rw [growListIfNeeded_eq]
  split
  · rfl
  · split <;> rfl

/-- The capacity computed for a full list whose doubling fits in `int`. -/
theorem grownCapacity_of_fits (l : CList) (h0 : 0 ≤ l.allocationSize)
    (h2 : 2 * l.allocationSize ≤ INT_MAX) :
    grownCapacity l = if l.allocationSize = 0 then 10 else 2 * l.allocationSize := by
  unfold grownCapacity INITIAL_ALLOCATION_SIZE
  split
  · rfl
  · exact wrapInt_of_fits _ (by omega) h2

/-- The call `growListIfNeeded` returns on a list whose growth fits in `int`. -/
theorem growListIfNeeded_returns [Inhabited T] (h : Heap T) (l : CList) (h0 : 0 ≤ l.allocationSize)
    (hf : GrowFits l) : (growListIfNeeded h l).exit = Exit.returned := by
  rw [growListIfNeeded_exit]
  split
  · rfl
  · rename_i hlt
    have h2 : 2 * l.allocationSize ≤ INT_MAX := by
      rcases hf.2 with e | e
      · exact absurd e hlt
      · exact e
    rw [if_neg]
    rw [grownCapacity_of_fits l h0 h2]
    split <;> omega

/-- What `growListIfNeeded` establishes when it returns, on a list that satisfies
the class invariant and whose `allocationSize` is an `int`. -/
theorem growListIfNeeded_spec [Inhabited T] (h : Heap T) (l : CList) (hv : Valid h l)
    (hr : l.allocationSize ≤ INT_MAX) (he : (growListIfNeeded h l).exit = Exit.returned) :
    Valid (growListIfNeeded h l).heap (growListIfNeeded h l).list ∧
    (growListIfNeeded h l).list.size = l.size ∧
    l.size < (growListIfNeeded h l).list.allocationSize ∧
    (growListIfNeeded h l).list.allocationSize ≤ INT_MAX ∧
    ∀ j, 0 ≤ j → j < l.size →
      (growListIfNeeded h l).heap.rd (growListIfNeeded h l).list.values j = h.rd l.values j := by
  have hne := hv.ne_next
  have hex := growListIfNeeded_exit h l
  rw [he] at hex
  obtain ⟨h0, h1, hb⟩ := hv
  rw [growListIfNeeded_eq]
  by_cases hlt : l.size < l.allocationSize
  · rw [if_pos hlt]
    exact ⟨⟨h0, h1, hb⟩, rfl, hlt, hr, fun _ _ _ => rfl⟩
  · rw [if_neg hlt] at hex ⊢
    have hnn : ¬ grownCapacity l < 0 := by
      intro hc
      rw [if_pos hc] at hex
      cases hex
    rw [if_neg hnn]
    have hcap : l.size < grownCapacity l ∧ grownCapacity l ≤ INT_MAX := by
      unfold grownCapacity INITIAL_ALLOCATION_SIZE at hnn ⊢
      split
      · unfold INT_MAX
        omega
      · rename_i hz
        rw [if_neg hz] at hnn
        have h2 : 2 * l.allocationSize ≤ INT_MAX :=
          (wrapInt_nonneg_iff _ (by omega) (by omega)).1 (by omega)
        rw [wrapInt_of_fits _ (by omega) h2]
        exact ⟨by omega, h2⟩
    refine ⟨⟨h0, le_of_lt hcap.1, ?_⟩, rfl, hcap.1, hcap.2, ?_⟩
    · simp only [Heap.delete_next, copyLoop_next, Heap.alloc_next]
      refine ⟨Nat.lt_succ_self _, ?_⟩
      rw [Heap.delete_len, copyLoop_len, Heap.alloc_len]
      simp [hne]
    · intro j hj0 hj1
      simp only [Heap.delete_rd]
      rw [copyLoop_rd _ _ _ _ _ _ hne]
      simp [hj0, hj1]

/-- The block that `growListIfNeeded` leaves in `values` is the old one or the one
it has just allocated; it writes to no cell that existed before, and ends the life
of no block but the old buffer.  This holds whether it returns or throws. -/
theorem growListIfNeeded_frame [Inhabited T] (h : Heap T) (l : CList)
    (hp : ∀ x, l.values = some x → x < h.next) :
    h.next ≤ (growListIfNeeded h l).heap.next ∧
    (∀ x, x < h.next → l.values ≠ some x → (growListIfNeeded h l).heap.len x = h.len x) ∧
    (∀ x j, x < h.next → (growListIfNeeded h l).heap.cell x j = h.cell x j) ∧
    ((growListIfNeeded h l).list.values = l.values ∨
      (growListIfNeeded h l).list.values = some h.next) ∧
    (∀ x, (growListIfNeeded h l).list.values = some x →
      x < (growListIfNeeded h l).heap.next) := by
  have hne : l.values ≠ some h.next := fun e => absurd (hp _ e) (lt_irrefl _)
  rw [growListIfNeeded_eq]
  split
  · exact ⟨le_refl _, fun _ _ _ => rfl, fun _ _ _ => rfl, Or.inl rfl, hp⟩
  · split
    · exact ⟨le_refl _, fun _ _ _ => rfl, fun _ _ _ => rfl, Or.inl rfl, hp⟩
    · refine ⟨?_, ?_, ?_, Or.inr rfl, ?_⟩
      · simp [copyLoop_next]
      · intro x hx hpx
        simp only []
        rw [Heap.delete_len, copyLoop_len, Heap.alloc_len]
        have : x ≠ h.next := by omega
        simp [hpx, this]
      · intro x j hx
        simp only [Heap.delete_cell]
        rw [copyLoop_cell _ _ _ _ _ _ hne]
        have : x ≠ h.next := by omega
        simp [this]
      · intro x hx
        simp only [Option.some.injEq] at hx
        simp only [Heap.delete_next, copyLoop_next, Heap.alloc_next]
        omega

/-! ## Indexed access -/

/-- C1: `operator[]` throws `ListMemoryBoundsException` exactly when `index < 0` or
`index >= size`; for `0 <= index < size` it does not throw and returns the element
stored in slot `index` of the buffer. -/
theorem opIndex_throws_iff [Inhabited T] (h : Heap T) (l : CList) (index : Int) :
    ((∃ e, opIndex h l index = Except.error e) ↔ (index < 0 ∨ index ≥ l.size)) ∧
    ((0 ≤ index ∧ index < l.size) → opIndex h l index = Except.ok (h.rd l.values index)) := by
  unfold opIndex
  constructor
  · constructor
    · intro ⟨e, he⟩
      by_contra hc
      rw [if_neg hc] at he
      cases he
    · intro hc
      rw [if_pos hc]
      exact ⟨_, rfl⟩
  · intro hc
    have : ¬ (index < 0 ∨ index ≥ l.size) := by omega
    rw [if_neg this]

/-- C2: for an out-of-range index `i` the exception raised by `operator[]` carries,
as `what()`, exactly
`"Error: illegal bounds access, list size: <size> tried to access index address: <i>"`,
which contains the decimal rendering of the size and that of `i`. -/
theorem opIndex_message [Inhabited T] (h : Heap T) (l : CList) (i : Int)
    (hi : i < 0 ∨ i ≥ l.size) :
    ∃ e, opIndex h l i = Except.error e ∧
      e.what = "Error: illegal bounds access, list size: " ++ toString l.size ++
        " tried to access index address: " ++ toString i ∧
      (∃ pre post, e.what = pre ++ toString l.size ++ post) ∧
      (∃ pre post, e.what = pre ++ toString i ++ post) := by
  unfold opIndex
  rw [if_pos hi]
  refine ⟨_, rfl, rfl, ?_, ?_⟩
  · exact ⟨"Error: illegal bounds access, list size: ",
      " tried to access index address: " ++ toString i, by
        simp [ListMemoryBoundsException.what, String.append_assoc]⟩
  · exact ⟨"Error: illegal bounds access, list size: " ++ toString l.size ++
      " tried to access index address: ", "", by
        simp [ListMemoryBoundsException.what]⟩

/-- C2 at a concrete input: index `5` on the list `[4, 6]`. -/
theorem opIndex_message_witness :
    ∃ e, opIndex heap1 list1 5 = Except.error e ∧
      e.what = "Error: illegal bounds access, list size: " ++ toString list1.size ++
        " tried to access index address: " ++ toString (5 : Int) ∧
      (∃ pre post, e.what = pre ++ toString list1.size ++ post) ∧
      (∃ pre post, e.what = pre ++ toString (5 : Int) ++ post) :=
  opIndex_message heap1 list1 5 (by decide)

/-! ## Insertion -/

theorem opIndex_ok [Inhabited T] (h : Heap T) (l : CList) (i : Int) (h0 : 0 ≤ i)
    (h1 : i < l.size) : opIndex h l i = Except.ok (h.rd l.values i) := by
  unfold opIndex
  have : ¬ (i < 0 ∨ i ≥ l.size) := by omega
  rw [if_neg this]

/-- The call `append`, on a list that satisfies the class invariant and whose growth
fits in `int`: it returns, the list satisfies the invariant again, the size is one
more, the capacity is the old one or the grown one, and the slots hold the old
values and the new one. -/
theorem append_facts [Inhabited T] (h : Heap T) (l : CList) (v : T) (hv : Valid h l)
    (hf : GrowFits l) :
    (append h l v).exit = Exit.returned ∧
    Valid (append h l v).heap (append h l v).list ∧
    (append h l v).list.size = l.size + 1 ∧
    (append h l v).list.allocationSize =
      (if l.size < l.allocationSize then l.allocationSize
        else if l.allocationSize = 0 then 10 else 2 * l.allocationSize) ∧
    ∀ j, 0 ≤ j → j ≤ l.size →
      (append h l v).heap.rd (append h l v).list.values j =
        if j = l.size then v else h.rd l.values j := by
  have he := growListIfNeeded_returns h l (le_trans hv.1 hv.2.1) hf
  obtain ⟨hvg, hs, hc, hm, hr⟩ := growListIfNeeded_spec h l hv hf.1 he
  have hl0 := hv.1
  have hal := growListIfNeeded_allocationSize h l
  have e : append h l v =
      { heap := (growListIfNeeded h l).heap.wr (growListIfNeeded h l).list.values
          (growListIfNeeded h l).list.size v,
        list := { (growListIfNeeded h l).list with
          size := wrapInt ((growListIfNeeded h l).list.size + 1) },
        exit := Exit.returned } := by
    unfold append
    simp only []
    rw [if_pos he]
  have hw : wrapInt ((growListIfNeeded h l).list.size + 1) = l.size + 1 := by
    rw [hs]
    exact wrapInt_of_fits _ (by omega) (by omega)
  obtain ⟨a, ha, -, -⟩ := hvg.values_some (by omega)
  rw [e]
  refine ⟨rfl, ?_, hw, ?_, ?_⟩
  · obtain ⟨g0, g1, gb⟩ := hvg
    refine ⟨?_, ?_, ?_⟩
    · show 0 ≤ wrapInt ((growListIfNeeded h l).list.size + 1)
      rw [hw]; omega
    · show wrapInt ((growListIfNeeded h l).list.size + 1) ≤
        (growListIfNeeded h l).list.allocationSize
      rw [hw]; omega
    · simpa using gb
  · show (growListIfNeeded h l).list.allocationSize = _
    rw [hal]
    split
    · rfl
    · rename_i hlt
      have h2 : 2 * l.allocationSize ≤ INT_MAX := by
        rcases hf.2 with e | e
        · exact absurd e hlt
        · exact e
      exact grownCapacity_of_fits l (le_trans hv.1 hv.2.1) h2
  · intro j hj0 hj1
    show ((growListIfNeeded h l).heap.wr (growListIfNeeded h l).list.values
      (growListIfNeeded h l).list.size v).rd (growListIfNeeded h l).list.values j = _
    rw [Heap.rd_wr, hs]
    by_cases hj : j = l.size
    · simp [hj, ha]
    · simp only [hj, and_false, if_false]
      exact hr j hj0 (by omega)

/-- C3, amended: on a list that satisfies the class invariant (`0 <= size <=
allocationSize`, with the buffer that goes with it) and whose growth fits in `int`
(`size < allocationSize`, or `2 * allocationSize <= INT_MAX`), `append(v)` returns,
makes the size `n + 1`, puts `v` at index `n`, and leaves the element at every index
`i < n` as it was, whether or not the buffer is reallocated. -/
theorem append_spec [Inhabited T] (h : Heap T) (l : CList) (v : T) (hv : Valid h l)
    (hf : GrowFits l) :
    (append h l v).exit = Exit.returned ∧
    (append h l v).list.size = l.size + 1 ∧
    opIndex (append h l v).heap (append h l v).list l.size = Except.ok v ∧
    ∀ i, 0 ≤ i → i < l.size →
      opIndex (append h l v).heap (append h l v).list i = opIndex h l i := by
  obtain ⟨he, _, hs, _, hr⟩ := append_facts h l v hv hf
  have hl0 := hv.1
  refine ⟨he, hs, ?_, ?_⟩
  · rw [opIndex_ok _ _ _ hl0 (by omega), hr _ hl0 le_rfl]
    simp
  · intro i hi0 hi1
    rw [opIndex_ok _ _ _ hi0 (by omega), opIndex_ok _ _ _ hi0 hi1, hr _ hi0 (by omega)]
    have : i ≠ l.size := by omega
    simp [this]

/-- C3, amended, at a concrete input: appending `5` to the full list `[4, 6]` of
capacity 2, which reallocates. -/
theorem append_spec_witness :
    (Valid heap1 list1 ∧ GrowFits list1) ∧
    (append heap1 list1 5).exit = Exit.returned ∧
    (append heap1 list1 5).list.size = list1.size + 1 ∧
    opIndex (append heap1 list1 5).heap (append heap1 list1 5).list list1.size = Except.ok 5 ∧
    ∀ i, 0 ≤ i → i < list1.size →
      opIndex (append heap1 list1 5).heap (append heap1 list1 5).list i = opIndex heap1 list1 i :=
  ⟨⟨valid_heap1_list1, growFits_list1⟩,
    append_spec heap1 list1 5 valid_heap1_list1 growFits_list1⟩

theorem grownCapacity_listBig : grownCapacity listBig = -2147483648 := by
  decide

theorem growListIfNeeded_listBig :
    growListIfNeeded heapBig listBig =
      { heap := heapBig, list := { listBig with allocationSize := -2147483648 },
        exit := Exit.badArrayNewLength } := by
  rw [growListIfNeeded_eq, if_neg (by decide), grownCapacity_listBig, if_pos (by decide)]

/-- C3 as stated fails: the full list of `2 ^ 30` slots satisfies
`0 <= size <= allocationSize`, but on it `2 * allocationSize` leaves `int`,
`new T[allocationSize]` throws, and `append(5)` ends with the size unchanged. -/
theorem append_overflow :
    Valid heapBig listBig ∧
    (append heapBig listBig 5).exit = Exit.badArrayNewLength ∧
    (append heapBig listBig 5).list.size = listBig.size ∧
    ¬ ((append heapBig listBig 5).list.size = listBig.size + 1) := by
  have e : append heapBig listBig 5 =
      { heap := heapBig, list := { listBig with allocationSize := -2147483648 },
        exit := Exit.badArrayNewLength } := by
    unfold append
    simp only [growListIfNeeded_listBig]
    rfl
  rw [e]
  exact ⟨valid_heapBig_listBig, rfl, rfl, by decide⟩

/-- The three ways out of `prepend` once `growListIfNeeded` has returned or thrown. -/
theorem prepend_eq [Inhabited T] [Elem T] (h : Heap T) (l : CList) (v : T) :
    prepend h l v =
      if (growListIfNeeded h l).exit = Exit.returned then
        if (shiftLoop (growListIfNeeded h l).heap (growListIfNeeded h l).list.values
            (growListIfNeeded h l).list.size).2.2 = true then
          { heap := (shiftLoop (growListIfNeeded h l).heap (growListIfNeeded h l).list.values
              (growListIfNeeded h l).list.size).1,
            list := (growListIfNeeded h l).list, exit := Exit.crashed }
        else
          { heap := ((shiftLoop (growListIfNeeded h l).heap (growListIfNeeded h l).list.values
              (growListIfNeeded h l).list.size).1).wr (growListIfNeeded h l).list.values 0 v,
            list := { (growListIfNeeded h l).list with
              size := wrapInt ((growListIfNeeded h l).list.size + 1) },
            exit := Exit.returned }
      else growListIfNeeded h l := rfl

/-- The first `prepend` on an empty list of `string`s: growth to 10 slots, then the
shift loop ends the call at `values[-1]`, with the size still 0. -/
theorem prepend_heapStr :
    prepend heapStr ctorDefault "v" =
      { heap := (growListIfNeeded heapStr ctorDefault).heap,
        list := { size := 0, allocationSize := 10, values := some 0 },
        exit := Exit.crashed } := by
  have hg : (growListIfNeeded heapStr ctorDefault).exit = Exit.returned :=
    growListIfNeeded_returns _ _ (le_refl _) growFits_ctorDefault
  have hl : (growListIfNeeded heapStr ctorDefault).list =
      { size := 0, allocationSize := 10, values := some 0 } := by
    rw [growListIfNeeded_eq]
    rfl
  have hs : shiftLoop (growListIfNeeded heapStr ctorDefault).heap (some 0) 0 =
      ((growListIfNeeded heapStr ctorDefault).heap, [-1], true) := by
    unfold shiftLoop
    rw [if_pos (le_refl _), Heap.inBlock_neg _ _ _ (by decide)]
    rfl
  rw [prepend_eq, if_pos hg, hl]
  simp only [hs, if_true]

/-- C5 (fails on the code): the shift loop of `prepend` is
`for (int i = size; i >= 0; i--)`, so its body also runs at `i = 0` and reads
`values[-1]`.  On the empty list the body runs once and the only offset read is
`-1`; on every list of `int`s that satisfies the class invariant, unless
`growListIfNeeded` throws before the loop, `-1` is among the offsets read; and on the
empty list of `string`s that read ends the call. -/
theorem prepend_reads_before_buffer :
    prependShiftReads heap0 ctorDefault = [-1] ∧
    ¬ (∀ i ∈ prependShiftReads heap0 ctorDefault, (0 : Int) ≤ i) ∧
    (∀ (h : Heap Int) (l : CList), Valid h l →
      (growListIfNeeded h l).exit = Exit.badArrayNewLength ∨
        (-1 : Int) ∈ prependShiftReads h l) ∧
    (prepend heapStr ctorDefault "v").exit = Exit.crashed := by
  have hmem : ∀ (h : Heap Int) (l : CList), Valid h l →
      (growListIfNeeded h l).exit = Exit.badArrayNewLength ∨
        (-1 : Int) ∈ prependShiftReads h l := by
    intro h l hv
    by_cases he : (growListIfNeeded h l).exit = Exit.returned
    · right
      unfold prependShiftReads
      simp only []
      rw [if_pos he]
      apply shiftLoop_reads
      · rw [growListIfNeeded_size]
        exact hv.1
      · intro j _ _
        rfl
    · left
      have := growListIfNeeded_exit h l
      rw [this] at he ⊢
      split at he
      · exact absurd rfl he
      · rename_i hlt
        rw [if_neg hlt]
        split at he
        · rename_i hc
          rw [if_pos hc]
        · exact absurd rfl he
  have e : prependShiftReads heap0 ctorDefault = [-1] := by
    have hg : (growListIfNeeded heap0 ctorDefault).exit = Exit.returned :=
      growListIfNeeded_returns _ _ (le_refl _) growFits_ctorDefault
    have hl : (growListIfNeeded heap0 ctorDefault).list =
        { size := 0, allocationSize := 10, values := some 0 } := by
      rw [growListIfNeeded_eq]
      rfl
    unfold prependShiftReads
    simp only []
    rw [if_pos hg, hl]
    simp [shiftLoop, Elem.trivial]
  refine ⟨e, ?_, hmem, ?_⟩
  · rw [e]
    decide
  · rw [prepend_heapStr]

/-! ## Equality -/

theorem eqLoop_true_iff [Inhabited T] [BEq T] (h : Heap T) (p q : Ptr) (size index : Int) :
    (eqLoop h p q size index).1 = true ↔
      ∀ i, index ≤ i → i < size → (h.rd p i == h.rd q i) = true := by
  unfold eqLoop
  split
  · rename_i hlt
    split
    · rename_i hne
      simp only [Bool.false_eq_true, false_iff]
      intro H
      have := H index le_rfl hlt
      simp [bne, this] at hne
    · rename_i hne
      simp only []
      rw [eqLoop_true_iff]
      constructor
      · intro H i hi0 hi1
        by_cases hi : i = index
        · subst hi
          simpa [bne] using hne
        · exact H i (by omega) hi1
      · intro H i hi0 hi1
        exact H i (by omega) hi1
  · simp only [true_iff]
    intro i hi0 hi1
    omega
termination_by (size - index).toNat
decreasing_by omega

/-- C6: `a == b` is true exactly when the sizes are equal and the elements at every
index in `[0, size)` compare equal; `allocationSize` plays no part in the result. -/
theorem opEq_iff [Inhabited T] [BEq T] (h : Heap T) (a b : CList) :
    (opEq h a b = true ↔
      a.size = b.size ∧
        ∀ i, 0 ≤ i → i < a.size → (h.rd a.values i == h.rd b.values i) = true) ∧
    (∀ c d : Int,
      opEq h { a with allocationSize := c } { b with allocationSize := d } = opEq h a b) := by
  constructor
  · unfold opEq
    by_cases hs : a.size = b.size
    · simp only [hs, ne_eq, not_true_eq_false, if_false, true_and]
      rw [eqLoop_true_iff]
    · simp [hs]
  · intro c d
    rfl

/-! ## Concatenation -/

/-- What `concatenate` does when the sum of the sizes is a non-negative `int`: a
temporary block, the two copying loops, the new list built from the temporary block,
and the temporary block released. -/
theorem concatenate_eq [Inhabited T] (h : Heap T) (a b : CList) (h0 : 0 ≤ a.size + b.size)
    (hs : a.size + b.size ≤ INT_MAX) :
    concatenate h a b =
      { heap := ((copyLoop
          ((copyLoop (copyLoop (h.alloc (a.size + b.size)).1 (some h.next) 0 a.values a.size
            0).1 (some h.next) a.size b.values b.size 0).1.alloc (a.size + b.size)).1
          (some (h.next + 1)) 0 (some h.next) (a.size + b.size) 0).1).delete (some h.next),
        list :=
          { size := a.size + b.size, allocationSize := a.size + b.size,
            values := some (h.next + 1) },
        exit := Exit.returned } := by
  have hw : wrapInt (a.size + b.size) = a.size + b.size := wrapInt_of_fits _ (by omega) hs
  unfold concatenate ctorArray
  simp only [hw]
  rw [Heap.new_of_nonneg _ _ h0]
  simp only [Heap.alloc_ptr]
  rw [Heap.new_of_nonneg _ _ h0]
  simp [copyLoop_next]

/-- The call `concatenate` throws when the sum of the sizes leaves `int`. -/
theorem concatenate_throws [Inhabited T] (h : Heap T) (a b : CList)
    (hs : wrapInt (a.size + b.size) < 0) :
    concatenate h a b = { heap := h, list := a, exit := Exit.badArrayNewLength } := by
  unfold concatenate
  simp only []
  rw [Heap.new_of_neg _ _ hs]

theorem concatenate_next [Inhabited T] (h : Heap T) (a b : CList) (h0 : 0 ≤ a.size + b.size)
    (hs : a.size + b.size ≤ INT_MAX) : (concatenate h a b).heap.next = h.next + 2 := by
  rw [concatenate_eq h a b h0 hs]
  simp [copyLoop_next]

theorem concatenate_len [Inhabited T] (h : Heap T) (a b : CList) (h0 : 0 ≤ a.size + b.size)
    (hs : a.size + b.size ≤ INT_MAX) (x : Nat) :
    (concatenate h a b).heap.len x =
      if x = h.next + 1 then some (a.size + b.size)
      else if x = h.next then none else h.len x := by
  rw [concatenate_eq h a b h0 hs]
  simp only [Heap.delete_len, copyLoop_len, copyLoop_next, Heap.alloc_len, Heap.alloc_next,
    Option.some.injEq]
  by_cases h1 : x = h.next + 1
  · subst h1; simp
  · by_cases h2 : x = h.next
    · subst h2; simp
    · have : ¬ h.next = x := fun e => h2 e.symm
      simp [h1, h2, this]

theorem concatenate_cell [Inhabited T] (h : Heap T) (a b : CList) (ha : Valid h a)
    (hb : Valid h b) (hs : a.size + b.size ≤ INT_MAX) (x : Nat) (j : Int) :
    (concatenate h a b).heap.cell x j =
      if x = h.next + 1 ∧ 0 ≤ j ∧ j < a.size + b.size then
        (if j < a.size then h.rd a.values j else h.rd b.values (j - a.size))
      else if x = h.next ∧ 0 ≤ j ∧ j < a.size + b.size then
        (if j < a.size then h.rd a.values j else h.rd b.values (j - a.size))
      else h.cell x j := by
  have hna := ha.ne_next
  have hnb := hb.ne_next
  have ha0 := ha.1
  have hb0 := hb.1
  have hd : (some h.next : Ptr) ≠ some (h.next + 1) := by simp
  rw [concatenate_eq h a b (by omega) hs]
  simp only [Heap.delete_cell]
  rw [copyLoop_cell _ _ _ _ _ _ hd]
  simp only [Heap.rd_some, Heap.alloc_cell, copyLoop_cell _ _ _ _ _ _ hnb,
    copyLoop_rd _ _ _ _ _ _ hna, copyLoop_cell _ _ _ _ _ _ hna, Heap.alloc_rd, zero_add,
    sub_zero, add_zero]
  have hbn : b.values ≠ some h.next := hnb
  by_cases h1 : x = h.next + 1
  · subst h1
    by_cases hj : 0 ≤ j ∧ j < a.size + b.size
    · by_cases hja : j < a.size
      · have : ¬ (a.size ≤ j ∧ j < b.size + a.size) := by omega
        simp [hj, hja, this, hj.1]
      · have : a.size ≤ j ∧ j < b.size + a.size := by omega
        simp [hj, hja, this, hbn]
    · simp [hj]
  · by_cases h2 : x = h.next
    · subst h2
      by_cases hj : 0 ≤ j ∧ j < a.size + b.size
      · by_cases hja : j < a.size
        · have : ¬ (a.size ≤ j ∧ j < b.size + a.size) := by omega
          simp [hj, hja, this, hj.1]
        · have : a.size ≤ j ∧ j < b.size + a.size := by omega
          simp [hj, hja, this, hbn]
      · have h3 : ¬ (a.size ≤ j ∧ j < b.size + a.size) := by omega
        have h4 : ¬ (0 ≤ j ∧ j < a.size) := by omega
        simp [hj, h3, h4]
    · simp [h1, h2]

/-- What `concatenate` returns, for operands whose sizes are non-negative and sum to
an `int`. -/
theorem concatenate_list [Inhabited T] (h : Heap T) (a b : CList) (h0 : 0 ≤ a.size + b.size)
    (hs : a.size + b.size ≤ INT_MAX) :
    (concatenate h a b).exit = Exit.returned ∧
    (concatenate h a b).list =
      { size := a.size + b.size, allocationSize := a.size + b.size,
        values := some (h.next + 1) } := by
  rw [concatenate_eq h a b h0 hs]
  exact ⟨rfl, rfl⟩

/-- The operation `concatenate` leaves every list that satisfies the class invariant
as it was: still satisfying it, with the same values in its buffer. -/
theorem concatenate_frame [Inhabited T] (h : Heap T) (a b : CList) (ha : Valid h a)
    (hb : Valid h b) (hs : a.size + b.size ≤ INT_MAX) (l : CList) (hl : Valid h l) :
    Valid (concatenate h a b).heap l ∧
    ∀ i, (concatenate h a b).heap.rd l.values i = h.rd l.values i := by
  have h0 : 0 ≤ a.size + b.size := by have := ha.1; have := hb.1; omega
  constructor
  · apply hl.frame
    · rw [concatenate_next h a b h0 hs]; omega
    · intro x hx
      rw [concatenate_len h a b h0 hs]
      have h1 : x ≠ h.next + 1 := by omega
      have h2 : x ≠ h.next := by omega
      simp [h1, h2]
  · intro i
    cases hv : l.values with
    | none => rfl
    | some x =>
      have hx : x < h.next := hl.ptr_lt x hv
      simp only [Heap.rd_some]
      rw [concatenate_cell h a b ha hb hs]
      have h1 : x ≠ h.next + 1 := by omega
      have h2 : x ≠ h.next := by omega
      simp [h1, h2]

theorem concatenate_valid [Inhabited T] (h : Heap T) (a b : CList) (ha : SizeInv a)
    (hb : SizeInv b) (hs : a.size + b.size ≤ INT_MAX) :
    Valid (concatenate h a b).heap (concatenate h a b).list := by
  have h0 : 0 ≤ a.size + b.size := by have := ha.1; have := hb.1; omega
  have hl := (concatenate_list h a b h0 hs).2
  refine ⟨by rw [hl]; exact h0, by rw [hl], ?_⟩
  rw [hl]
  simp only []
  rw [concatenate_next h a b h0 hs, concatenate_len h a b h0 hs]
  simp

/-- C7, amended: for lists `a` and `b` that satisfy the class invariant and whose
sizes sum to an `int` (`a.size + b.size <= INT_MAX`), `c = a.concatenate(b)` returns,
has size `a.size + b.size` and an `allocationSize` equal to its size, holds the
elements of `a` followed by those of `b`, and leaves the buffers of `a` and `b` as
they were: both still satisfy the invariant and hold the same elements.  (The member
is `const` and takes `const List<T>&`, so it cannot assign the data members of
either operand.) -/
theorem concatenate_spec [Inhabited T] (h : Heap T) (a b : CList) (ha : Valid h a)
    (hb : Valid h b) (hs : a.size + b.size ≤ INT_MAX) :
    (concatenate h a b).exit = Exit.returned ∧
    (concatenate h a b).list.size = a.size + b.size ∧
    (concatenate h a b).list.allocationSize = (concatenate h a b).list.size ∧
    (∀ i, 0 ≤ i → i < a.size →
      opIndex (concatenate h a b).heap (concatenate h a b).list i = opIndex h a i) ∧
    (∀ i, a.size ≤ i → i < a.size + b.size →
      opIndex (concatenate h a b).heap (concatenate h a b).list i =
        opIndex h b (i - a.size)) ∧
    (Valid (concatenate h a b).heap a ∧ Valid (concatenate h a b).heap b) ∧
    (∀ i, opIndex (concatenate h a b).heap a i = opIndex h a i) ∧
    (∀ i, opIndex (concatenate h a b).heap b i = opIndex h b i) := by
  have ha0 := ha.1
  have hb0 := hb.1
  obtain ⟨hex, hl⟩ := concatenate_list h a b (by omega) hs
  have hsz : (concatenate h a b).list.size = a.size + b.size := by rw [hl]
  have hval : (concatenate h a b).list.values = some (h.next + 1) := by rw [hl]
  obtain ⟨va, ra⟩ := concatenate_frame h a b ha hb hs a ha
  obtain ⟨vb, rb⟩ := concatenate_frame h a b ha hb hs b hb
  refine ⟨hex, hsz, by rw [hl], ?_, ?_, ⟨va, vb⟩, ?_, ?_⟩
  · intro i hi0 hi1
    rw [opIndex_ok _ _ _ hi0 (by rw [hsz]; omega), opIndex_ok _ _ _ hi0 hi1, hval]
    simp only [Heap.rd_some]
    rw [concatenate_cell h a b ha hb hs]
    have : 0 ≤ i ∧ i < a.size + b.size := by omega
    simp [this, hi1]
  · intro i hi0 hi1
    rw [opIndex_ok _ _ _ (by omega) (by rw [hsz]; omega),
      opIndex_ok _ _ _ (by omega) (by omega), hval]
    simp only [Heap.rd_some]
    rw [concatenate_cell h a b ha hb hs]
    have h1 : 0 ≤ i ∧ i < a.size + b.size := by omega
    have h2 : ¬ i < a.size := by omega
    simp [h1, h2]
  · intro i
    unfold opIndex
    rw [ra]
  · intro i
    unfold opIndex
    rw [rb]

/-- C7, amended, at a concrete input: the list `[4, 6]` concatenated with the list
`[9]`. -/
theorem concatenate_spec_witness :
    (Valid heap1 list1 ∧ Valid heap1 list9 ∧ list1.size + list9.size ≤ INT_MAX) ∧
    (concatenate heap1 list1 list9).exit = Exit.returned ∧
    (concatenate heap1 list1 list9).list.size = list1.size + list9.size ∧
    (concatenate heap1 list1 list9).list.allocationSize =
      (concatenate heap1 list1 list9).list.size ∧
    (∀ i, 0 ≤ i → i < list1.size →
      opIndex (concatenate heap1 list1 list9).heap (concatenate heap1 list1 list9).list i =
        opIndex heap1 list1 i) ∧
    (∀ i, list1.size ≤ i → i < list1.size + list9.size →
      opIndex (concatenate heap1 list1 list9).heap (concatenate heap1 list1 list9).list i =
        opIndex heap1 list9 (i - list1.size)) ∧
    (Valid (concatenate heap1 list1 list9).heap list1 ∧
      Valid (concatenate heap1 list1 list9).heap list9) ∧
    (∀ i, opIndex (concatenate heap1 list1 list9).heap list1 i = opIndex heap1 list1 i) ∧
    (∀ i, opIndex (concatenate heap1 list1 list9).heap list9 i = opIndex heap1 list9 i) :=
  ⟨⟨valid_heap1_list1, valid_heap1_list9, by decide⟩,
    concatenate_spec heap1 list1 list9 valid_heap1_list1 valid_heap1_list9 (by decide)⟩

theorem concatenate_listBig :
    concatenate heapBig listBig listBig =
      { heap := heapBig, list := listBig, exit := Exit.badArrayNewLength } :=
  concatenate_throws heapBig listBig listBig (by decide)

/-- C7 as stated fails: two lists of `2 ^ 30` elements satisfy `0 <= size <=
allocationSize`, but the sum of their sizes leaves `int`, `new
T[concatenatedSize]` throws, and no list of size `a.size + b.size` is returned. -/
theorem concatenate_overflow :
    Valid heapBig listBig ∧
    (concatenate heapBig listBig listBig).exit = Exit.badArrayNewLength ∧
    ¬ ((concatenate heapBig listBig listBig).exit = Exit.returned ∧
      (concatenate heapBig listBig listBig).list.size = listBig.size + listBig.size) := by
  rw [concatenate_listBig]
  exact ⟨valid_heapBig_listBig, rfl, fun hc => by cases hc.1⟩

/-! ## Rendering -/

theorem intercalate_go_append (p acc s : String) (xs : List String) :
    String.intercalate.go (p ++ acc) s xs = p ++ String.intercalate.go acc s xs := by
  induction xs generalizing acc with
  | nil => rfl
  | cons x xs ih =>
    simp only [String.intercalate.go]
    rw [← ih]
    simp [String.append_assoc]

theorem strLoop_eq [Inhabited T] [ToString T] (h : Heap T) (l : CList) (k : Nat) :
    ∀ (index : Int) (out : String), 0 ≤ index → index + k + 1 = l.size →
      (strLoop h l out index).1 =
        String.intercalate.go (out ++ toString (h.rd l.values index)) ", "
          ((List.range' (index.toNat + 1) k).map
            (fun (i : Nat) => toString (h.rd l.values (i : Int)))) ++ " " := by
  induction k with
  | zero =>
    intro index out h0 h1
    unfold strLoop
    have hlt : index < l.size := by omega
    have hlast : index = l.size - 1 := by omega
    simp only [hlt, if_true]
    unfold strLoop
    have hge : ¬ (index + 1 < l.size) := by omega
    simp [hge, hlast, String.intercalate.go]
  | succ k ih =>
    intro index out h0 h1
    unfold strLoop
    have hlt : index < l.size := by omega
    have hlast : ¬ (index = l.size - 1) := by omega
    simp only [hlt, if_true, hlast, if_false]
    rw [ih (index + 1) _ (by omega) (by omega)]
    have e1 : (index + 1).toNat = index.toNat + 1 := by omega
    have e2 : ((index.toNat + 1 : Nat) : Int) = index + 1 := by omega
    rw [List.range'_succ, List.map_cons, String.intercalate.go, e1, e2]

theorem str_eq [Inhabited T] [ToString T] (h : Heap T) (l : CList) :
    str h l =
      "<list> size: " ++ toString l.size ++ " allocationSize: " ++
        toString l.allocationSize ++ " [ " ++
        ", ".intercalate ((contents h l).map toString) ++
        (if l.size ≤ 0 then "" else " ") ++ "]" := by
  dsimp only [str, contents]
  by_cases hs : l.size ≤ 0
  · have e : l.size.toNat = 0 := by omega
    unfold strLoop
    have : ¬ (0 < l.size) := by omega
    simp [this, hs, e, String.intercalate]
  · obtain ⟨k, hk⟩ : ∃ k : Nat, l.size = k + 1 := ⟨(l.size - 1).toNat, by omega⟩
    have e : l.size.toNat = k + 1 := by omega
    rw [strLoop_eq h l k 0 _ le_rfl (by omega), e, List.range_eq_range', List.range'_succ]
    simp only [hs, if_false, List.map_cons, List.map_map, String.intercalate]
    rw [intercalate_go_append]
    simp [String.append_assoc, Function.comp_def]

/-- C8: `str()` returns `"<list> size: n allocationSize: c [ "`, then the textual
forms of the elements joined by `", "`, then one space if there is an element, then
`"]"`; so `[1, 3, 7]` of capacity 10 renders as
`"<list> size: 3 allocationSize: 10 [ 1, 3, 7 ]"` and the empty list as
`"<list> size: 0 allocationSize: 0 [ ]"`. -/
theorem str_spec [Inhabited T] [ToString T] (h : Heap T) (l : CList) :
    str h l =
      "<list> size: " ++ toString l.size ++ " allocationSize: " ++
        toString l.allocationSize ++ " [ " ++
        ", ".intercalate ((contents h l).map toString) ++
        (if l.size ≤ 0 then "" else " ") ++ "]" ∧
    str heap2 list2 = "<list> size: 3 allocationSize: 10 [ 1, 3, 7 ]" ∧
    str heap0 ctorDefault = "<list> size: 0 allocationSize: 0 [ ]" := by
  refine ⟨str_eq h l, ?_, ?_⟩
  · simp [str, strLoop, heap2, list2, Heap.rd]
    decide
  · simp [str, strLoop, ctorDefault]
    decide

/-! ## Sequences of insertions -/

theorem holds_ctorDefault [Inhabited T] (h : Heap T) : Holds h ctorDefault ([] : List T) :=
  ⟨rfl, fun i hi => absurd hi (Nat.not_lt_zero i)⟩

theorem insertInv_start [Inhabited T] (h : Heap T) :
    InsertInv (start h ctorDefault) ([] : List T) :=
  ⟨rfl, valid_ctorDefault h, holds_ctorDefault h, Or.inl ⟨rfl, rfl⟩⟩

theorem append_holds [Inhabited T] (h : Heap T) (l : CList) (v : T) (xs : List T)
    (hv : Valid h l) (hf : GrowFits l) (hx : Holds h l xs) :
    Holds (append h l v).heap (append h l v).list (xs ++ [v]) := by
  obtain ⟨_, _, hsz, _, hr⟩ := append_facts h l v hv hf
  obtain ⟨hs, he⟩ := hx
  refine ⟨by rw [hsz, hs]; simp, ?_⟩
  intro i hi
  rw [hr i (by omega) (by simp at hi; omega)]
  by_cases hil : i < xs.length
  · have : (i : Int) ≠ l.size := by omega
    rw [List.getElem?_append_left hil, he i hil]
    simp [this]
  · have hie : i = xs.length := by simp at hi; omega
    have : (i : Int) = l.size := by omega
    subst hie
    simp [this]

theorem holds_opIndex [Inhabited T] (h : Heap T) (l : CList) (xs : List T)
    (hx : Holds h l xs) (i : Int) (h0 : 0 ≤ i) (h1 : i < l.size) :
    ∃ x, xs[i.toNat]? = some x ∧ opIndex h l i = Except.ok x := by
  obtain ⟨hs, he⟩ := hx
  refine ⟨h.rd l.values i, ?_, opIndex_ok h l i h0 h1⟩
  have := he i.toNat (by omega)
  rw [this]
  have e : ((i.toNat : Nat) : Int) = i := by omega
  rw [e]

/-- After an insertion the capacity is again of the form `10 * 2 ^ k`, just large
enough. -/
theorem capInv_insert (l m : CList)
    (hc : (l.size = 0 ∧ l.allocationSize = 0) ∨ CapInv l) (hs : m.size = l.size + 1)
    (ha : m.allocationSize =
      (if l.size < l.allocationSize then l.allocationSize
        else if l.allocationSize = 0 then 10 else 2 * l.allocationSize)) :
    CapInv m := by
  rcases hc with ⟨z0, z1⟩ | ⟨k, hk, h1, h2, h3⟩
  · refine ⟨0, ?_, ?_, ?_, Or.inl rfl⟩
    · rw [ha, z0, z1]; simp
    · rw [hs, z0]; simp
    · rw [hs, ha, z0, z1]; simp
  · have hpos : (0 : Int) < 2 ^ k := by positivity
    by_cases hlt : l.size < l.allocationSize
    · refine ⟨k, ?_, ?_, ?_, ?_⟩
      · rw [ha, if_pos hlt, hk]
      · rw [hs]; omega
      · rw [hs, ha, if_pos hlt]; omega
      · rcases h3 with e | e
        · exact Or.inl e
        · right
          rw [hs]; omega
    · have hne : l.allocationSize ≠ 0 := by omega
      refine ⟨k + 1, ?_, ?_, ?_, ?_⟩
      · rw [ha, if_neg hlt, if_neg hne, hk, pow_succ]
        ring
      · rw [hs]; omega
      · rw [hs, ha, if_neg hlt, if_neg hne]; omega
      · right
        rw [hs, Nat.add_sub_cancel, ← hk]
        omega

theorem capInv_least (l : CList) (hl : CapInv l) :
    (∃ k : Nat, l.allocationSize = 10 * 2 ^ k) ∧
    (∀ j : Nat, l.size ≤ 10 * 2 ^ j → l.allocationSize ≤ 10 * 2 ^ j) ∧
    l.allocationSize < 2 * max l.size 10 := by
  obtain ⟨k, hk, h1, h2, h3⟩ := hl
  refine ⟨⟨k, hk⟩, ?_, ?_⟩
  · intro j hj
    rw [hk]
    rcases h3 with e | e
    · subst e
      have : (1 : Int) ≤ 2 ^ j := by
        have : (0 : Int) < 2 ^ j := by positivity
        omega
      simp only [pow_zero, mul_one]
      omega
    · have hlt : (10 : Int) * 2 ^ (k - 1) < 10 * 2 ^ j := lt_of_lt_of_le e hj
      have h2lt : (2 : Int) ^ (k - 1) < 2 ^ j := by omega
      have hkj : k - 1 < j := by
        by_contra hc
        have : (2 : Int) ^ j ≤ 2 ^ (k - 1) :=
          pow_le_pow_right₀ (by norm_num) (by omega)
        omega
      have : (2 : Int) ^ k ≤ 2 ^ j := pow_le_pow_right₀ (by norm_num) (by omega)
      omega
  · rcases h3 with e | e
    · subst e
      rw [hk]
      have : (10 : Int) ≤ max l.size 10 := le_max_right _ _
      simp only [pow_zero, mul_one]
      omega
    · have hk1 : k = (k - 1) + 1 := by
        rcases k with _ | k
        · simp at e
          omega
        · simp
      have : l.allocationSize = 2 * (10 * 2 ^ (k - 1)) := by
        rw [hk]
        nth_rewrite 1 [hk1]
        rw [pow_succ]
        ring
      have : l.size ≤ max l.size 10 := le_max_left _ _
      omega

/-- Below `INSERT_LIMIT` elements, the growth of a list whose capacity is 0 or of
the form `10 * 2 ^ k` fits in `int`. -/
theorem growFits_of_capInv (l : CList)
    (hc : (l.size = 0 ∧ l.allocationSize = 0) ∨ CapInv l) (hl : l.size < INSERT_LIMIT) :
    GrowFits l := by
  unfold INSERT_LIMIT at hl
  rcases hc with ⟨z0, z1⟩ | ⟨k, hk, h1, h2, h3⟩
  · refine ⟨?_, Or.inr ?_⟩
    · rw [z1]; decide
    · rw [z1]; decide
  · have h27 : (2 : Int) ^ 27 = 134217728 := by norm_num
    have hk27 : k ≤ 27 := by
      by_contra hcon
      rcases h3 with e | e
      · omega
      · have : (2 : Int) ^ 27 ≤ 2 ^ (k - 1) := pow_le_pow_right₀ (by norm_num) (by omega)
        omega
    have hle : (2 : Int) ^ k ≤ 2 ^ 27 := pow_le_pow_right₀ (by norm_num) hk27
    refine ⟨?_, ?_⟩
    · unfold INT_MAX
      omega
    · by_cases hlt : l.size < l.allocationSize
      · exact Or.inl hlt
      · right
        have hk26 : k + 1 ≤ 27 := by
          by_contra hcon
          have : k = 27 := by omega
          subst this
          omega
        have hle2 : (2 : Int) ^ (k + 1) ≤ 2 ^ 27 := pow_le_pow_right₀ (by norm_num) hk26
        rw [pow_succ] at hle2
        unfold INT_MAX
        omega

theorem insertInv_append [Inhabited T] (s : Ret T) (xs : List T) (v : T)
    (hi : InsertInv s xs) (hl : xs.length < INSERT_LIMIT) :
    InsertInv (append s.heap s.list v) (xs ++ [v]) := by
  obtain ⟨he, hv, hx, hc⟩ := hi
  have hf : GrowFits s.list := growFits_of_capInv _ hc (by rw [hx.1]; exact_mod_cast hl)
  obtain ⟨e1, e2, e3, e4, _⟩ := append_facts s.heap s.list v hv hf
  exact ⟨e1, e2, append_holds _ _ _ _ hv hf hx, Or.inr (capInv_insert _ _ hc e3 e4)⟩

theorem appendAll_append [Inhabited T] (xs ys : List T) :
    ∀ s : Ret T, appendAll s (xs ++ ys) = appendAll (appendAll s xs) ys := by
  induction xs with
  | nil => intro s; rfl
  | cons x xs ih => intro s; exact ih _

theorem insertInv_appendAll [Inhabited T] (xs : List T) :
    ∀ (s : Ret T) (ys : List T), InsertInv s ys → ys.length + xs.length ≤ INSERT_LIMIT →
      InsertInv (appendAll s xs) (ys ++ xs) := by
  induction xs with
  | nil =>
    intro s ys hi _
    simpa [appendAll] using hi
  | cons x xs ih =>
    intro s ys hi hl
    simp only [List.length_cons] at hl
    have h1 := insertInv_append s ys x hi (by omega)
    have h2 := ih (append s.heap s.list x) (ys ++ [x]) h1 (by simp; omega)
    have e : appendAll s (x :: xs) = appendAll (append s.heap s.list x) xs := by
      show appendAll (if s.exit = Exit.returned then append s.heap s.list x else s) xs = _
      rw [if_pos hi.1]
    rw [e]
    simpa using h2

theorem insertInv_appendAll_start [Inhabited T] (h : Heap T) (xs : List T)
    (hn : xs.length ≤ INSERT_LIMIT) : InsertInv (appendAll (start h ctorDefault) xs) xs := by
  have := insertInv_appendAll xs (start h ctorDefault) [] (insertInv_start h)
    (by rw [List.length_nil]; omega)
  rw [List.nil_append] at this
  exact this

/-- C9, amended: appending the values `x0, ..., x(n-1)` in order to a
default-constructed list, for `n <= 1342177280` (so that no `2 * allocationSize`
leaves `int`), returns every time and gives a list of size `n` whose element at
every index `i < n` is `xi`, however many times `growListIfNeeded` reallocated on the
way. -/
theorem appendAll_spec [Inhabited T] (h : Heap T) (xs : List T)
    (hn : xs.length ≤ INSERT_LIMIT) :
    (appendAll (start h ctorDefault) xs).exit = Exit.returned ∧
    (appendAll (start h ctorDefault) xs).list.size = xs.length ∧
    ∀ i : Int, 0 ≤ i → i < xs.length →
      ∃ x, xs[i.toNat]? = some x ∧
        opIndex (appendAll (start h ctorDefault) xs).heap
          (appendAll (start h ctorDefault) xs).list i = Except.ok x := by
  obtain ⟨he, _, hx, _⟩ := insertInv_appendAll_start h xs hn
  refine ⟨he, hx.1, ?_⟩
  intro i h0 h1
  exact holds_opIndex _ _ _ hx i h0 (by rw [hx.1]; exact h1)

/-- C9, amended, at a concrete input: the values `3, 7, 1` appended. -/
theorem appendAll_spec_witness :
    ([3, 7, 1] : List Int).length ≤ INSERT_LIMIT ∧
    (appendAll (start heap0 ctorDefault) [3, 7, 1]).exit = Exit.returned ∧
    (appendAll (start heap0 ctorDefault) [3, 7, 1]).list.size = ([3, 7, 1] : List Int).length ∧
    ∀ i : Int, 0 ≤ i → i < ([3, 7, 1] : List Int).length →
      ∃ x, ([3, 7, 1] : List Int)[i.toNat]? = some x ∧
        opIndex (appendAll (start heap0 ctorDefault) [3, 7, 1]).heap
          (appendAll (start heap0 ctorDefault) [3, 7, 1]).list i = Except.ok x :=
  ⟨by decide, appendAll_spec heap0 [3, 7, 1] (by decide)⟩

/-- A list that holds `INSERT_LIMIT` elements after that many insertions is full, and
the next growth throws. -/
theorem growListIfNeeded_at_limit [Inhabited T] (s : Ret T) (xs : List T)
    (hi : InsertInv s xs) (hl : xs.length = INSERT_LIMIT) :
    (growListIfNeeded s.heap s.list).exit = Exit.badArrayNewLength ∧
    (growListIfNeeded s.heap s.list).list.size = INSERT_LIMIT := by
  obtain ⟨_, _, hx, hc⟩ := hi
  have hsz : s.list.size = 1342177280 := by
    rw [hx.1, hl]
    rfl
  have hal : s.list.allocationSize = 1342177280 := by
    rcases hc with ⟨z0, _⟩ | hc
    · omega
    · have h27 : (2 : Int) ^ 27 = 134217728 := by norm_num
      have h1 := (capInv_least _ hc).2.1 27 (by rw [hsz, h27]; decide)
      obtain ⟨_, _, _, h2, _⟩ := hc
      omega
  have hg : grownCapacity s.list = -1610612736 := by
    unfold grownCapacity
    rw [hal]
    decide
  constructor
  · rw [growListIfNeeded_exit, if_neg (by omega), hg, if_pos (by decide)]
  · rw [growListIfNeeded_size, hsz]
    rfl

/-- An `append` whose growth throws leaves what `growListIfNeeded` left. -/
theorem append_of_throw [Inhabited T] (h : Heap T) (l : CList) (v : T)
    (hg : (growListIfNeeded h l).exit = Exit.badArrayNewLength) :
    append h l v = growListIfNeeded h l := by
  unfold append
  simp only []
  rw [if_neg (by rw [hg]; decide)]

theorem appendAll_singleton [Inhabited T] (s : Ret T) (v : T) (he : s.exit = Exit.returned) :
    appendAll s [v] = append s.heap s.list v := by
  show appendAll (if s.exit = Exit.returned then append s.heap s.list v else s) [] = _
  rw [if_pos he]
  rfl

/-- C9 as stated fails: the append number `1342177281` to a default-constructed list
finds the list full with `allocationSize = 1342177280`; `2 * allocationSize` leaves
`int`, `new` throws, and the size stays `1342177280`. -/
theorem appendAll_overflow :
    (appendAll (start heap0 ctorDefault)
      (List.replicate (INSERT_LIMIT + 1) (0 : Int))).exit = Exit.badArrayNewLength ∧
    (appendAll (start heap0 ctorDefault)
      (List.replicate (INSERT_LIMIT + 1) (0 : Int))).list.size = INSERT_LIMIT ∧
    ¬ ((appendAll (start heap0 ctorDefault)
      (List.replicate (INSERT_LIMIT + 1) (0 : Int))).list.size =
        ((List.replicate (INSERT_LIMIT + 1) (0 : Int)).length : Int)) := by
  have hi := insertInv_appendAll_start heap0 (List.replicate INSERT_LIMIT (0 : Int))
    (by rw [List.length_replicate])
  obtain ⟨g1, g2⟩ := growListIfNeeded_at_limit _ _ hi (List.length_replicate _ _)
  have e : appendAll (start heap0 ctorDefault) (List.replicate (INSERT_LIMIT + 1) (0 : Int)) =
      growListIfNeeded
        (appendAll (start heap0 ctorDefault) (List.replicate INSERT_LIMIT (0 : Int))).heap
        (appendAll (start heap0 ctorDefault) (List.replicate INSERT_LIMIT (0 : Int))).list := by
    rw [List.replicate_succ', appendAll_append, appendAll_singleton _ _ hi.1,
      append_of_throw _ _ _ g1]
  rw [e]
  refine ⟨g1, g2, ?_⟩
  rw [g2, List.length_replicate]
  intro hc
  have := Int.ofNat.inj hc
  omega

theorem HasSlots.ptr_ne_next {h : Heap T} {p : Ptr} {n : Int} (hs : HasSlots h p n) :
    p ≠ some h.next := by
  intro e
  rw [e] at hs
  exact absurd hs.1 (lt_irrefl _)

/-- The copy constructor on a list with a non-negative `allocationSize`. -/
theorem ctorCopy_eq [Inhabited T] (h : Heap T) (a : CList) (h0 : 0 ≤ a.allocationSize) :
    ctorCopy h a =
      { heap := (copyLoop (h.alloc a.allocationSize).1 (some h.next) 0 a.values a.size 0).1,
        list := { size := a.size, allocationSize := a.allocationSize, values := some h.next },
        exit := Exit.returned } := by
  unfold ctorCopy
  rw [Heap.new_of_nonneg _ _ h0]
  rfl

theorem ctorCopy_valid [Inhabited T] (h : Heap T) (a : CList) (ha : Valid h a) :
    Valid (ctorCopy h a).heap (ctorCopy h a).list := by
  rw [ctorCopy_eq h a (le_trans ha.1 ha.2.1)]
  refine ⟨ha.1, ha.2.1, ?_⟩
  simp only [copyLoop_next, copyLoop_len, Heap.alloc_next, Heap.alloc_len]
  simp

theorem ctorCopy_rd [Inhabited T] (h : Heap T) (a : CList) (ha : Valid h a) (q : Ptr)
    (j : Int) :
    (ctorCopy h a).heap.rd q j =
      if q = some h.next ∧ 0 ≤ j ∧ j < a.size then h.rd a.values j else h.rd q j := by
  rw [ctorCopy_eq h a (le_trans ha.1 ha.2.1)]
  simp only []
  rw [copyLoop_rd _ _ _ _ _ _ ha.ne_next]
  simp

/-- C11: the copy constructor, applied to a list `a` that satisfies the class
invariant, returns and produces a list `b` with the size and the `allocationSize` of
`a` (the capacity is not trimmed) and the elements of `a` at the indices
`[0, a.size)`; `a` keeps its elements, and `b == a` when the equality of the element
type is reflexive. -/
theorem ctorCopy_spec [Inhabited T] [BEq T] (h : Heap T) (a : CList) (ha : Valid h a)
    (hrefl : ∀ x : T, (x == x) = true) :
    (ctorCopy h a).exit = Exit.returned ∧
    (ctorCopy h a).list.size = a.size ∧
    (ctorCopy h a).list.allocationSize = a.allocationSize ∧
    (∀ i, 0 ≤ i → i < a.size →
      opIndex (ctorCopy h a).heap (ctorCopy h a).list i = opIndex h a i) ∧
    (∀ i, opIndex (ctorCopy h a).heap a i = opIndex h a i) ∧
    opEq (ctorCopy h a).heap (ctorCopy h a).list a = true := by
  have hne := ha.ne_next
  have he := ctorCopy_eq h a (le_trans ha.1 ha.2.1)
  have hval : (ctorCopy h a).list.values = some h.next := by rw [he]
  have hsz : (ctorCopy h a).list.size = a.size := by rw [he]
  have hfr : ∀ i, (ctorCopy h a).heap.rd a.values i = h.rd a.values i := by
    intro i
    rw [ctorCopy_rd h a ha]
    simp [hne]
  have hcp : ∀ i, 0 ≤ i → i < a.size →
      (ctorCopy h a).heap.rd (ctorCopy h a).list.values i = h.rd a.values i := by
    intro i hi0 hi1
    rw [hval, ctorCopy_rd h a ha]
    simp [hi0, hi1]
  refine ⟨by rw [he], hsz, by rw [he], ?_, ?_, ?_⟩
  · intro i hi0 hi1
    rw [opIndex_ok _ _ _ hi0 (by rw [hsz]; exact hi1), opIndex_ok _ _ _ hi0 hi1, hcp i hi0 hi1]
  · intro i
    unfold opIndex
    rw [hfr]
  · unfold opEq
    simp only [hsz, ne_eq, not_true_eq_false, if_false]
    rw [eqLoop_true_iff]
    intro i hi0 hi1
    rw [hcp i hi0 hi1, hfr]
    exact hrefl _

/-- C11 at a concrete input: the copy of the list `[4, 6]`. -/
theorem ctorCopy_spec_witness :
    Valid heap1 list1 ∧
    (ctorCopy heap1 list1).exit = Exit.returned ∧
    (ctorCopy heap1 list1).list.size = list1.size ∧
    (ctorCopy heap1 list1).list.allocationSize = list1.allocationSize ∧
    (∀ i, 0 ≤ i → i < list1.size →
      opIndex (ctorCopy heap1 list1).heap (ctorCopy heap1 list1).list i =
        opIndex heap1 list1 i) ∧
    (∀ i, opIndex (ctorCopy heap1 list1).heap list1 i = opIndex heap1 list1 i) ∧
    opEq (ctorCopy heap1 list1).heap (ctorCopy heap1 list1).list list1 = true :=
  ⟨valid_heap1_list1, ctorCopy_spec heap1 list1 valid_heap1_list1 (fun x => by simp)⟩

/-- The constructor `List(n, values)` for `n ≥ 0`. -/
theorem ctorArray_eq [Inhabited T] (h : Heap T) (n : Int) (src : Ptr) (hn : 0 ≤ n) :
    ctorArray h n src =
      { heap := (copyLoop (h.alloc n).1 (some h.next) 0 src n 0).1,
        list := { size := n, allocationSize := n, values := some h.next },
        exit := Exit.returned } := by
  unfold ctorArray
  rw [Heap.new_of_nonneg _ _ hn]
  rfl

theorem ctorArray_valid [Inhabited T] (h : Heap T) (n : Int) (src : Ptr) (hn : 0 ≤ n) :
    Valid (ctorArray h n src).heap (ctorArray h n src).list := by
  rw [ctorArray_eq h n src hn]
  refine ⟨hn, le_refl _, ?_⟩
  simp only [copyLoop_next, copyLoop_len, Heap.alloc_next, Heap.alloc_len]
  simp

/-- C13: for `n ≥ 0` and a source array of at least `n` values, `List(n, values)`
returns and produces a list whose size and `allocationSize` are both `n` and whose
element at every index `i` in `[0, n)` is `values[i]`; the list satisfies the class
invariant. -/
theorem ctorArray_spec [Inhabited T] (h : Heap T) (n : Int) (src : Ptr) (hn : 0 ≤ n)
    (hs : HasSlots h src n) :
    (ctorArray h n src).exit = Exit.returned ∧
    (ctorArray h n src).list.size = n ∧
    (ctorArray h n src).list.allocationSize = n ∧
    Valid (ctorArray h n src).heap (ctorArray h n src).list ∧
    ∀ i, 0 ≤ i → i < n →
      opIndex (ctorArray h n src).heap (ctorArray h n src).list i = Except.ok (h.rd src i) := by
  have hv := ctorArray_valid h n src hn
  have he := ctorArray_eq h n src hn
  refine ⟨by rw [he], by rw [he], by rw [he], hv, ?_⟩
  intro i hi0 hi1
  rw [opIndex_ok _ _ _ hi0 (by rw [he]; exact hi1), he]
  simp only []
  rw [copyLoop_rd _ _ _ _ _ _ hs.ptr_ne_next]
  simp [hi0, hi1]

theorem hasSlots_heap1 : HasSlots heap1 (some 0) 2 :=
  ⟨by decide, 2, rfl, le_refl _⟩

/-- C13 at a concrete input: the list built from the two values `4, 6` of the first
block of `heap1`. -/
theorem ctorArray_spec_witness :
    ((0 : Int) ≤ 2 ∧ HasSlots heap1 (some 0) 2) ∧
    (ctorArray heap1 2 (some 0)).exit = Exit.returned ∧
    (ctorArray heap1 2 (some 0)).list.size = 2 ∧
    (ctorArray heap1 2 (some 0)).list.allocationSize = 2 ∧
    Valid (ctorArray heap1 2 (some 0)).heap (ctorArray heap1 2 (some 0)).list ∧
    ∀ i, 0 ≤ i → i < 2 →
      opIndex (ctorArray heap1 2 (some 0)).heap (ctorArray heap1 2 (some 0)).list i =
        Except.ok (heap1.rd (some 0) i) :=
  ⟨⟨by decide, hasSlots_heap1⟩, ctorArray_spec heap1 2 (some 0) (by decide) hasSlots_heap1⟩

/-! ## Growth -/

/-- C16, amended: on a list that satisfies the class invariant and whose
`allocationSize` is an `int`, `growListIfNeeded` leaves the size as it was.  If
`size < allocationSize` it returns with the list and the heap untouched.  If
`size == allocationSize == 0` it returns with `allocationSize`
`INITIAL_ALLOCATION_SIZE = 10`.  If `size == allocationSize > 0` and `2 *
allocationSize <= INT_MAX` it returns with `allocationSize` doubled; if `2 *
allocationSize > INT_MAX` the doubled value wraps to a negative `int`, `new` throws,
and the list is left with `allocationSize < size`.  Whenever it returns, the elements
at the indices `[0, size)` are as they were and `size < allocationSize`. -/
theorem growListIfNeeded_cases [Inhabited T] (h : Heap T) (l : CList) (hv : Valid h l)
    (hr : l.allocationSize ≤ INT_MAX) :
    (growListIfNeeded h l).list.size = l.size ∧
    (l.size < l.allocationSize →
      growListIfNeeded h l = { heap := h, list := l, exit := Exit.returned }) ∧
    (l.size = l.allocationSize → l.allocationSize = 0 →
      (growListIfNeeded h l).exit = Exit.returned ∧
      (growListIfNeeded h l).list.allocationSize = 10) ∧
    (l.size = l.allocationSize → 0 < l.allocationSize → 2 * l.allocationSize ≤ INT_MAX →
      (growListIfNeeded h l).exit = Exit.returned ∧
      (growListIfNeeded h l).list.allocationSize = 2 * l.allocationSize) ∧
    (l.size = l.allocationSize → INT_MAX < 2 * l.allocationSize →
      (growListIfNeeded h l).exit = Exit.badArrayNewLength ∧
      (growListIfNeeded h l).list.allocationSize < (growListIfNeeded h l).list.size) ∧
    ((growListIfNeeded h l).exit = Exit.returned →
      (∀ i, 0 ≤ i → i < l.size →
        opIndex (growListIfNeeded h l).heap (growListIfNeeded h l).list i = opIndex h l i) ∧
      (growListIfNeeded h l).list.size < (growListIfNeeded h l).list.allocationSize) := by
  have hs := growListIfNeeded_size h l
  have hal := growListIfNeeded_allocationSize h l
  have hex := growListIfNeeded_exit h l
  have h0 := hv.1
  refine ⟨hs, ?_, ?_, ?_, ?_, ?_⟩
  · intro hlt
    rw [growListIfNeeded_eq, if_pos hlt]
  · intro he hz
    have hlt : ¬ l.size < l.allocationSize := by omega
    have hg : grownCapacity l = 10 := by
      rw [grownCapacity_of_fits l (by omega) (by rw [hz]; decide), if_pos hz]
    rw [hex, hal, if_neg hlt, if_neg hlt, hg]
    exact ⟨by rw [if_neg (by decide)], rfl⟩
  · intro he hp h2
    have hlt : ¬ l.size < l.allocationSize := by omega
    have hg : grownCapacity l = 2 * l.allocationSize := by
      rw [grownCapacity_of_fits l (by omega) h2, if_neg (by omega)]
    rw [hex, hal, if_neg hlt, if_neg hlt, hg]
    exact ⟨by rw [if_neg (by omega)], rfl⟩
  · intro he h2
    have hlt : ¬ l.size < l.allocationSize := by omega
    have hg : grownCapacity l < 0 := by
      unfold grownCapacity
      rw [if_neg (by unfold INT_MAX at h2; omega)]
      exact wrapInt_neg_of_overflow _ h2 (by omega)
    rw [hex, hal, hs, if_neg hlt, if_neg hlt, if_pos hg]
    exact ⟨rfl, by omega⟩
  · intro he
    obtain ⟨_, _, hc, _, hrd⟩ := growListIfNeeded_spec h l hv hr he
    refine ⟨?_, by rw [hs]; exact hc⟩
    intro i hi0 hi1
    rw [opIndex_ok _ _ _ hi0 (by rw [hs]; exact hi1), opIndex_ok _ _ _ hi0 hi1, hrd i hi0 hi1]

/-- C16, amended, at a concrete input: the full list `[4, 6]` of capacity 2. -/
theorem growListIfNeeded_cases_witness :
    (Valid heap1 list1 ∧ list1.allocationSize ≤ INT_MAX) ∧
    (growListIfNeeded heap1 list1).exit = Exit.returned ∧
    (growListIfNeeded heap1 list1).list.allocationSize = 2 * list1.allocationSize :=
  ⟨⟨valid_heap1_list1, by decide⟩,
    (growListIfNeeded_cases heap1 list1 valid_heap1_list1 (by decide)).2.2.2.1 rfl (by decide)
      (by decide)⟩

/-- C16 as stated fails: on the full list of `2 ^ 30` slots `growListIfNeeded` does
not make `allocationSize` `2 * allocationSize`: the value wraps to `-2 ^ 31`, `new`
throws, and `size < allocationSize` does not hold afterwards. -/
theorem growListIfNeeded_overflow :
    Valid heapBig listBig ∧ listBig.size = listBig.allocationSize ∧
    0 < listBig.allocationSize ∧
    (growListIfNeeded heapBig listBig).exit = Exit.badArrayNewLength ∧
    ¬ ((growListIfNeeded heapBig listBig).list.allocationSize = 2 * listBig.allocationSize) ∧
    ¬ ((growListIfNeeded heapBig listBig).list.size <
      (growListIfNeeded heapBig listBig).list.allocationSize) := by
  rw [growListIfNeeded_listBig]
  exact ⟨valid_heapBig_listBig, rfl, by decide, rfl, by decide, by decide⟩

/-! ## Frame properties: what an operation leaves untouched -/

/-- One call of `append` or `prepend` on a list touches only the buffer of that list
and blocks allocated during the call, whether the call returns or not. -/
theorem applyOp_frame [Inhabited T] [Elem T] (s : Ret T) (o : Op T)
    (hp : ∀ x, s.list.values = some x → x < s.heap.next) :
    s.heap.next ≤ (applyOp s o).heap.next ∧
    (∀ x, x < s.heap.next → s.list.values ≠ some x →
      (applyOp s o).heap.len x = s.heap.len x ∧
      ∀ j, (applyOp s o).heap.cell x j = s.heap.cell x j) ∧
    ((applyOp s o).list.values = s.list.values ∨
      (applyOp s o).list.values = some s.heap.next) ∧
    (∀ x, (applyOp s o).list.values = some x → x < (applyOp s o).heap.next) := by
  by_cases hs : s.exit = Exit.returned
  swap
  · have e : applyOp s o = s := by
      unfold applyOp
      rw [if_neg hs]
    rw [e]
    exact ⟨le_refl _, fun _ _ _ => ⟨rfl, fun _ => rfl⟩, Or.inl rfl, hp⟩
  obtain ⟨hn, hl, hc, hv, hq⟩ := growListIfNeeded_frame s.heap s.list hp
  have hne : ∀ x, x < s.heap.next → s.list.values ≠ some x →
      (growListIfNeeded s.heap s.list).list.values ≠ some x := by
    intro x hx hlx
    rcases hv with e | e
    · rw [e]; exact hlx
    · rw [e]; intro e2; have := Option.some.inj e2; omega
  by_cases hg : (growListIfNeeded s.heap s.list).exit = Exit.returned
  swap
  · have e : applyOp s o = growListIfNeeded s.heap s.list := by
      unfold applyOp
      rw [if_pos hs]
      cases o with
      | append v =>
        show append s.heap s.list v = _
        unfold append
        simp only []
        rw [if_neg hg]
      | prepend v =>
        show prepend s.heap s.list v = _
        rw [prepend_eq, if_neg hg]
    rw [e]
    exact ⟨hn, fun x hx hlx => ⟨hl x hx hlx, fun j => hc x j hx⟩, hv, hq⟩
  cases o with
  | append v =>
    have e : applyOp s (Op.append v) =
        { heap := (growListIfNeeded s.heap s.list).heap.wr
            (growListIfNeeded s.heap s.list).list.values
            (growListIfNeeded s.heap s.list).list.size v,
          list := { (growListIfNeeded s.heap s.list).list with
            size := wrapInt ((growListIfNeeded s.heap s.list).list.size + 1) },
          exit := Exit.returned } := by
      unfold applyOp
      rw [if_pos hs]
      show append s.heap s.list v = _
      unfold append
      simp only []
      rw [if_pos hg]
    rw [e]
    refine ⟨?_, ?_, hv, ?_⟩
    · simpa using hn
    · intro x hx hlx
      refine ⟨?_, ?_⟩
      · simpa using hl x hx hlx
      · intro j
        simp only []
        rw [Heap.wr_cell, hc x j hx]
        simp [hne x hx hlx]
    · intro x hx
      simpa using hq x hx
  | prepend v =>
    have e : applyOp s (Op.prepend v) = prepend s.heap s.list v := by
      unfold applyOp
      rw [if_pos hs]
    rw [e, prepend_eq, if_pos hg]
    split
    · refine ⟨?_, ?_, hv, ?_⟩
      · simpa [shiftLoop_next] using hn
      · intro x hx hlx
        refine ⟨?_, ?_⟩
        · simpa [shiftLoop_len] using hl x hx hlx
        · intro j
          simp only []
          rw [shiftLoop_cell_other _ _ _ _ _ (hne x hx hlx), hc x j hx]
      · intro x hx
        simpa [shiftLoop_next] using hq x hx
    · refine ⟨?_, ?_, hv, ?_⟩
      · simpa [shiftLoop_next] using hn
      · intro x hx hlx
        refine ⟨?_, ?_⟩
        · simpa [shiftLoop_len] using hl x hx hlx
        · intro j
          simp only []
          rw [Heap.wr_cell, shiftLoop_cell_other _ _ _ _ _ (hne x hx hlx), hc x j hx]
          simp [hne x hx hlx]
      · intro x hx
        simpa [shiftLoop_next] using hq x hx

/-- Calls of `append` and `prepend` on one list leave another list alone, if the two
do not share a buffer: the other list still satisfies the class invariant, its
buffer holds the same values, and the two still do not share a buffer. -/
theorem runOps_frame [Inhabited T] [Elem T] (a : CList) (ops : List (Op T)) :
    ∀ (s : Ret T), (∀ x, s.list.values = some x → x < s.heap.next) → Valid s.heap a →
      (∀ x, a.values = some x → s.list.values ≠ some x) →
      Valid (runOps s ops).heap a ∧
      (∀ x, a.values = some x → (runOps s ops).list.values ≠ some x) ∧
      (∀ i, (runOps s ops).heap.rd a.values i = s.heap.rd a.values i) ∧
      (s.list.values ≠ none → (runOps s ops).list.values ≠ none) := by
  induction ops with
  | nil =>
    intro s _ ha hd
    exact ⟨ha, hd, fun _ => rfl, fun e => e⟩
  | cons o ops ih =>
    intro s hp ha hd
    obtain ⟨hn, hf, hv, hq⟩ := applyOp_frame s o hp
    have hax : ∀ x, a.values = some x → x < s.heap.next := fun x hx => ha.ptr_lt x hx
    have ha2 : Valid (applyOp s o).heap a := by
      refine ⟨ha.1, ha.2.1, ?_⟩
      cases hx : a.values with
      | none => have := ha.2.2; rw [hx] at this; exact this
      | some x =>
        have h1 := ha.2.2
        rw [hx] at h1
        have h2 : s.list.values ≠ some x := fun e => hd x hx e
        exact ⟨lt_of_lt_of_le h1.1 hn, by rw [(hf x h1.1 h2).1]; exact h1.2⟩
    have hd2 : ∀ x, a.values = some x → (applyOp s o).list.values ≠ some x := by
      intro x hx
      rcases hv with e | e
      · rw [e]; exact hd x hx
      · rw [e]; intro e2
        have := Option.some.inj e2
        have := hax x hx
        omega
    obtain ⟨r1, r2, r3, r4⟩ := ih (applyOp s o) hq ha2 hd2
    refine ⟨r1, r2, ?_, ?_⟩
    · intro i
      have e : (runOps s (o :: ops)).heap.rd a.values i = (applyOp s o).heap.rd a.values i :=
        r3 i
      rw [e]
      cases hx : a.values with
      | none => rfl
      | some x =>
        have h2 : s.list.values ≠ some x := fun e => hd x hx e
        simp only [Heap.rd_some]
        exact (hf x (hax x hx) h2).2 i
    · intro hs
      apply r4
      rcases hv with e | e
      · rw [e]; exact hs
      · rw [e]; simp

/-- C12: copy independence.  Let `b` be copy-constructed from a list `a` that
satisfies the class invariant.  After any sequence of `append`/`prepend` calls on
`b`, the list `a` (whose data members no call on `b` can assign) still satisfies the
invariant and holds the same element at every index, and the buffer of `b` is not
that of `a`; the same holds with the roles of `a` and `b` exchanged. -/
theorem copy_independent [Inhabited T] [Elem T] (h : Heap T) (a : CList) (ops : List (Op T))
    (ha : Valid h a) :
    (ctorCopy h a).list.values ≠ a.values ∧
    (Valid (runOps (ctorCopy h a) ops).heap a ∧
      (∀ i, opIndex (runOps (ctorCopy h a) ops).heap a i = opIndex h a i) ∧
      (runOps (ctorCopy h a) ops).list.values ≠ a.values) ∧
    (Valid (runOps (start (ctorCopy h a).heap a) ops).heap (ctorCopy h a).list ∧
      (∀ i, opIndex (runOps (start (ctorCopy h a).heap a) ops).heap (ctorCopy h a).list i =
        opIndex (ctorCopy h a).heap (ctorCopy h a).list i) ∧
      (runOps (start (ctorCopy h a).heap a) ops).list.values ≠ (ctorCopy h a).list.values) := by
  have hne := ha.ne_next
  have he := ctorCopy_eq h a (le_trans ha.1 ha.2.1)
  have hval : (ctorCopy h a).list.values = some h.next := by rw [he]
  have hnext : (ctorCopy h a).heap.next = h.next + 1 := by
    rw [he]
    simp [copyLoop_next]
  have hb : Valid (ctorCopy h a).heap (ctorCopy h a).list := ctorCopy_valid h a ha
  have ha1 : Valid (ctorCopy h a).heap a := by
    apply ha.frame
    · rw [hnext]; omega
    · intro x hx
      rw [he]
      simp only [copyLoop_len, Heap.alloc_len]
      have : x ≠ h.next := by omega
      simp [this]
  have hfr : ∀ i, (ctorCopy h a).heap.rd a.values i = h.rd a.values i := by
    intro i
    rw [ctorCopy_rd h a ha]
    simp [hne]
  have hd1 : ∀ x, a.values = some x → (ctorCopy h a).list.values ≠ some x := by
    intro x hx e
    rw [hval] at e
    rw [hx, ← e] at hne
    exact hne rfl
  have hd2 : ∀ x, (ctorCopy h a).list.values = some x → a.values ≠ some x := by
    intro x hx e
    exact hd1 x e hx
  refine ⟨?_, ?_, ?_⟩
  · rw [hval]; exact fun e => hne e.symm
  · obtain ⟨r1, r2, r3, r4⟩ := runOps_frame a ops (ctorCopy h a) hb.ptr_lt ha1 hd1
    refine ⟨r1, ?_, ?_⟩
    · intro i
      unfold opIndex
      rw [r3, hfr]
    · intro e
      cases hx : a.values with
      | none =>
        rw [hx] at e
        exact r4 (by rw [hval]; simp) e
      | some x => exact r2 x hx (by rw [e, hx])
  · obtain ⟨r1, r2, r3, _⟩ :=
      runOps_frame (ctorCopy h a).list ops (start (ctorCopy h a).heap a) ha1.ptr_lt hb hd2
    refine ⟨r1, ?_, ?_⟩
    · intro i
      unfold opIndex
      rw [r3]
      rfl
    · intro e
      exact r2 h.next hval (by rw [e, hval])

/-- C12 at a concrete input: the copy of the list `[4, 6]`, and the calls
`append(5)`, `prepend(8)`, `append(2)` on either list. -/
theorem copy_independent_witness :
    Valid heap1 list1 ∧
    (ctorCopy heap1 list1).list.values ≠ list1.values ∧
    (Valid (runOps (ctorCopy heap1 list1) [Op.append 5, Op.prepend 8, Op.append 2]).heap list1 ∧
      (∀ i, opIndex (runOps (ctorCopy heap1 list1)
          [Op.append 5, Op.prepend 8, Op.append 2]).heap list1 i = opIndex heap1 list1 i) ∧
      (runOps (ctorCopy heap1 list1) [Op.append 5, Op.prepend 8, Op.append 2]).list.values ≠
        list1.values) ∧
    (Valid (runOps (start (ctorCopy heap1 list1).heap list1)
        [Op.append 5, Op.prepend 8, Op.append 2]).heap (ctorCopy heap1 list1).list ∧
      (∀ i, opIndex (runOps (start (ctorCopy heap1 list1).heap list1)
          [Op.append 5, Op.prepend 8, Op.append 2]).heap (ctorCopy heap1 list1).list i =
        opIndex (ctorCopy heap1 list1).heap (ctorCopy heap1 list1).list i) ∧
      (runOps (start (ctorCopy heap1 list1).heap list1)
        [Op.append 5, Op.prepend 8, Op.append 2]).list.values ≠
          (ctorCopy heap1 list1).list.values) :=
  ⟨valid_heap1_list1,
    copy_independent heap1 list1 [Op.append 5, Op.prepend 8, Op.append 2] valid_heap1_list1⟩

/-! ## The scenario of the specification -/

theorem scenarioList_eval :
    scenarioList.exit = Exit.returned ∧
    scenarioList.list = { size := 3, allocationSize := 10, values := some 0 } ∧
    scenarioList.heap.next = 1 ∧ scenarioList.heap.len 0 = some 10 ∧
    scenarioList.heap.cell 0 0 = 1 ∧ scenarioList.heap.cell 0 1 = 3 ∧
    scenarioList.heap.cell 0 2 = 7 := by
  simp [scenarioList, runOps, applyOp, start, prepend, append, growListIfNeeded, ctorDefault,
    INITIAL_ALLOCATION_SIZE, Heap.new, Heap.alloc, copyLoop, shiftLoop, Heap.wr, Heap.rd, heap0,
    Heap.delete, wrapInt, Elem.trivial]

theorem scenarioNine_eval :
    scenarioNine.exit = Exit.returned ∧
    scenarioNine.list = { size := 1, allocationSize := 10, values := some 1 } ∧
    scenarioNine.heap.next = 2 ∧ scenarioNine.heap.len 0 = some 10 ∧
    scenarioNine.heap.len 1 = some 10 ∧
    scenarioNine.heap.cell 0 0 = 1 ∧ scenarioNine.heap.cell 0 1 = 3 ∧
    scenarioNine.heap.cell 0 2 = 7 ∧ scenarioNine.heap.cell 1 0 = 9 := by
  obtain ⟨e0, e1, e2, e3, e4, e5, e6⟩ := scenarioList_eval
  simp [scenarioNine, append, growListIfNeeded, ctorDefault, INITIAL_ALLOCATION_SIZE,
    Heap.new, Heap.alloc, copyLoop, Heap.wr, Heap.rd, Heap.delete, wrapInt, e2, e3, e4, e5, e6]

/-- C14: from the empty list, `append(3)`, `append(7)`, `prepend(1)` give a list of
size 3 with the elements `[1, 3, 7]`; indexing it at 5 throws, with a message that
mentions size 3 and index 5; concatenating it with the list `[9]` gives a list of size
4 with the elements `[1, 3, 7, 9]`, and the original list still has size 3 and the
elements `[1, 3, 7]`.  Every call of the scenario returns. -/
theorem scenario_spec :
    scenarioList.exit = Exit.returned ∧
    scenarioList.list.size = 3 ∧
    contents scenarioList.heap scenarioList.list = [1, 3, 7] ∧
    (∃ e, opIndex scenarioList.heap scenarioList.list 5 = Except.error e ∧
      e.what = "Error: illegal bounds access, list size: 3 tried to access index address: 5") ∧
    scenarioNine.exit = Exit.returned ∧
    contents scenarioNine.heap scenarioNine.list = [9] ∧
    scenarioConcat.exit = Exit.returned ∧
    scenarioConcat.list.size = 4 ∧
    contents scenarioConcat.heap scenarioConcat.list = [1, 3, 7, 9] ∧
    contents scenarioConcat.heap scenarioList.list = [1, 3, 7] := by
  obtain ⟨e0, e1, e2, e3, e4, e5, e6⟩ := scenarioList_eval
  obtain ⟨n0, n1, n2, n3, n4, n5, n6, n7, n8⟩ := scenarioNine_eval
  refine ⟨e0, by rw [e1], ?_, ?_, n0, ?_, ?_, ?_, ?_, ?_⟩
  · simp [contents, e1, Heap.rd, List.range, List.range.loop, e4, e5, e6]
  · refine ⟨⟨"Error: illegal bounds access, list size: 3 tried to access index address: 5"⟩,
      ?_, rfl⟩
    simp only [opIndex, e1]
    rw [if_pos (by decide)]
    exact congrArg Except.error (congrArg ListMemoryBoundsException.mk (by decide))
  · simp [contents, n1, Heap.rd, List.range, List.range.loop, n8]
  · simp [scenarioConcat, concatenate, ctorArray, e1, n1, Heap.new, wrapInt]
  · simp [scenarioConcat, concatenate, ctorArray, e1, n1, Heap.new, wrapInt]
  · simp [scenarioConcat, contents, concatenate, ctorArray, e1, n1, n2, Heap.new, Heap.alloc,
      copyLoop, Heap.wr, Heap.rd, Heap.delete, List.range, List.range.loop, n5, n6, n7, n8,
      wrapInt]
  · simp [scenarioConcat, contents, concatenate, ctorArray, e1, n1, n2, Heap.new, Heap.alloc,
      copyLoop, Heap.wr, Heap.rd, Heap.delete, List.range, List.range.loop, n5, n6, n7, n8,
      wrapInt]

/-! ## The invariant `0 <= size <= allocationSize` -/

/-- The data members after a `growListIfNeeded` that returned, on a list for which
`0 <= size <= allocationSize` holds and whose `allocationSize` is an `int`. -/
theorem growListIfNeeded_sizeInv [Inhabited T] (h : Heap T) (l : CList) (hl : SizeInv l)
    (hr : l.allocationSize ≤ INT_MAX) (he : (growListIfNeeded h l).exit = Exit.returned) :
    (growListIfNeeded h l).list.size = l.size ∧
    l.size < (growListIfNeeded h l).list.allocationSize ∧
    (growListIfNeeded h l).list.allocationSize ≤ INT_MAX := by
  obtain ⟨h0, h1⟩ := hl
  have hex := growListIfNeeded_exit h l
  rw [he] at hex
  refine ⟨growListIfNeeded_size h l, ?_⟩
  rw [growListIfNeeded_allocationSize]
  by_cases hlt : l.size < l.allocationSize
  · rw [if_pos hlt]
    exact ⟨hlt, hr⟩
  · rw [if_neg hlt] at hex ⊢
    have hnn : ¬ grownCapacity l < 0 := by
      intro hc
      rw [if_pos hc] at hex
      cases hex
    unfold grownCapacity INITIAL_ALLOCATION_SIZE at hnn ⊢
    split
    · unfold INT_MAX
      omega
    · rename_i hz
      rw [if_neg hz] at hnn
      have h2 : 2 * l.allocationSize ≤ INT_MAX :=
        (wrapInt_nonneg_iff _ (by omega) (by omega)).1 (by omega)
      rw [wrapInt_of_fits _ (by omega) h2]
      exact ⟨by omega, h2⟩

/-- The list that `append` leaves when it returns. -/
theorem append_sizeInv [Inhabited T] (h : Heap T) (l : CList) (v : T) (hl : SizeInv l)
    (hr : l.allocationSize ≤ INT_MAX) (he : (append h l v).exit = Exit.returned) :
    SizeInv (append h l v).list := by
  have h0 := hl.1
  by_cases hg : (growListIfNeeded h l).exit = Exit.returned
  · obtain ⟨hs, hc, hm⟩ := growListIfNeeded_sizeInv h l hl hr hg
    have e : (append h l v).list = { (growListIfNeeded h l).list with
        size := wrapInt ((growListIfNeeded h l).list.size + 1) } := by
      unfold append
      simp only []
      rw [if_pos hg]
    have hw : wrapInt ((growListIfNeeded h l).list.size + 1) = l.size + 1 := by
      rw [hs]
      exact wrapInt_of_fits _ (by omega) (by omega)
    rw [e]
    constructor
    · show 0 ≤ wrapInt ((growListIfNeeded h l).list.size + 1)
      rw [hw]; omega
    · show wrapInt ((growListIfNeeded h l).list.size + 1) ≤
        (growListIfNeeded h l).list.allocationSize
      rw [hw]; omega
  · have e : append h l v = growListIfNeeded h l := by
      unfold append
      simp only []
      rw [if_neg hg]
    rw [e] at he
    exact absurd he hg

/-- The list that `prepend` leaves when it returns. -/
theorem prepend_sizeInv [Inhabited T] [Elem T] (h : Heap T) (l : CList) (v : T)
    (hl : SizeInv l) (hr : l.allocationSize ≤ INT_MAX)
    (he : (prepend h l v).exit = Exit.returned) :
    SizeInv (prepend h l v).list := by
  have h0 := hl.1
  rw [prepend_eq] at he ⊢
  by_cases hg : (growListIfNeeded h l).exit = Exit.returned
  · obtain ⟨hs, hc, hm⟩ := growListIfNeeded_sizeInv h l hl hr hg
    have hw : wrapInt ((growListIfNeeded h l).list.size + 1) = l.size + 1 := by
      rw [hs]
      exact wrapInt_of_fits _ (by omega) (by omega)
    rw [if_pos hg] at he ⊢
    split
    · rename_i hc2
      rw [if_pos hc2] at he
      cases he
    · constructor
      · show 0 ≤ wrapInt ((growListIfNeeded h l).list.size + 1)
        rw [hw]; omega
      · show wrapInt ((growListIfNeeded h l).list.size + 1) ≤
          (growListIfNeeded h l).list.allocationSize
        rw [hw]; omega
  · rw [if_neg hg] at he
    exact absurd he hg

/-- The call `prepend` returns for a trivially copyable element type, on a list whose
growth fits in `int`. -/
theorem prepend_returns [Inhabited T] [Elem T] (h : Heap T) (l : CList) (v : T)
    (h0 : 0 ≤ l.allocationSize) (hf : GrowFits l) (ht : Elem.trivial T = true) :
    (prepend h l v).exit = Exit.returned := by
  have hg := growListIfNeeded_returns h l h0 hf
  rw [prepend_eq, if_pos hg, shiftLoop_runs _ _ _ ht]
  rfl

/-- The call `append` returns on a list whose growth fits in `int`. -/
theorem append_returns [Inhabited T] (h : Heap T) (l : CList) (v : T)
    (h0 : 0 ≤ l.allocationSize) (hf : GrowFits l) :
    (append h l v).exit = Exit.returned := by
  have hg := growListIfNeeded_returns h l h0 hf
  unfold append
  simp only []
  rw [if_pos hg]

/-- The list that `concatenate` returns has a size that `new` accepted, and no slack. -/
theorem concatenate_sizeInv [Inhabited T] (h : Heap T) (a b : CList)
    (he : (concatenate h a b).exit = Exit.returned) :
    SizeInv (concatenate h a b).list := by
  by_cases hc : wrapInt (a.size + b.size) < 0
  · rw [concatenate_throws h a b hc] at he
    cases he
  · have h0 : 0 ≤ wrapInt (a.size + b.size) := by omega
    have e : (concatenate h a b).list =
        { size := wrapInt (a.size + b.size), allocationSize := wrapInt (a.size + b.size),
          values := some (h.next + 1) } := by
      unfold concatenate ctorArray
      simp only []
      rw [Heap.new_of_nonneg _ _ h0]
      simp only [Heap.alloc_ptr]
      rw [Heap.new_of_nonneg _ _ h0]
      simp [copyLoop_next]
    rw [e]
    exact ⟨h0, le_refl _⟩

/-- C15, amended: `0 <= size <= allocationSize` holds for the default-constructed
list and for `List(n, values)` with `n >= 0`, and when it holds for the operands it
holds for the result of the copy constructor and for the list that
`growListIfNeeded`, `append`, `prepend` or `concatenate` leaves or returns, provided
the call returns.  The copy constructor and `List(n, values)` return;
`growListIfNeeded` and `append` return when the growth fits in `int` (`size <
allocationSize` or `2 * allocationSize <= INT_MAX`), `prepend` when moreover the
element type is trivially copyable (`List<int>`), `concatenate` when `a.size +
b.size <= INT_MAX`.  The operands of the copy constructor and of `concatenate` are
`const`: their data members are as before. -/
theorem sizeInv_preserved [Inhabited T] [Elem T] :
    SizeInv ctorDefault ∧
    (∀ (h : Heap T) (n : Int) (src : Ptr), 0 ≤ n →
      (ctorArray h n src).exit = Exit.returned ∧ SizeInv (ctorArray h n src).list) ∧
    (∀ (h : Heap T) (l : CList), SizeInv l →
      (ctorCopy h l).exit = Exit.returned ∧ SizeInv (ctorCopy h l).list ∧ SizeInv l) ∧
    (∀ (h : Heap T) (l : CList), SizeInv l → l.allocationSize ≤ INT_MAX →
      ((growListIfNeeded h l).exit = Exit.returned → SizeInv (growListIfNeeded h l).list) ∧
      (GrowFits l → (growListIfNeeded h l).exit = Exit.returned)) ∧
    (∀ (h : Heap T) (l : CList) (v : T), SizeInv l → l.allocationSize ≤ INT_MAX →
      ((append h l v).exit = Exit.returned → SizeInv (append h l v).list) ∧
      (GrowFits l → (append h l v).exit = Exit.returned)) ∧
    (∀ (h : Heap T) (l : CList) (v : T), SizeInv l → l.allocationSize ≤ INT_MAX →
      ((prepend h l v).exit = Exit.returned → SizeInv (prepend h l v).list) ∧
      (GrowFits l → Elem.trivial T = true → (prepend h l v).exit = Exit.returned)) ∧
    (∀ (h : Heap T) (a b : CList), SizeInv a → SizeInv b →
      ((concatenate h a b).exit = Exit.returned → SizeInv (concatenate h a b).list) ∧
      (a.size + b.size ≤ INT_MAX → (concatenate h a b).exit = Exit.returned) ∧
      SizeInv a ∧ SizeInv b) := by
  refine ⟨⟨le_refl _, le_refl _⟩, ?_, ?_, ?_, ?_, ?_, ?_⟩
  · intro h n src hn
    rw [ctorArray_eq h n src hn]
    exact ⟨rfl, hn, le_refl _⟩
  · intro h l hl
    rw [ctorCopy_eq h l (le_trans hl.1 hl.2)]
    exact ⟨rfl, hl, hl⟩
  · intro h l hl hr
    refine ⟨?_, growListIfNeeded_returns h l (le_trans hl.1 hl.2)⟩
    intro he
    obtain ⟨hs, hc, _⟩ := growListIfNeeded_sizeInv h l hl hr he
    have h0 := hl.1
    exact ⟨by rw [hs]; exact h0, by rw [hs]; omega⟩
  · intro h l v hl hr
    exact ⟨append_sizeInv h l v hl hr, append_returns h l v (le_trans hl.1 hl.2)⟩
  · intro h l v hl hr
    refine ⟨prepend_sizeInv h l v hl hr, ?_⟩
    intro hf ht
    exact prepend_returns h l v (le_trans hl.1 hl.2) hf ht
  · intro h a b ha hb
    refine ⟨concatenate_sizeInv h a b, ?_, ha, hb⟩
    intro hs
    have h0 : 0 ≤ a.size + b.size := by have := ha.1; have := hb.1; omega
    exact (concatenate_list h a b h0 hs).1

/-- C15, amended, at a concrete input: `append(5)` on the full list `[4, 6]` of
capacity 2. -/
theorem sizeInv_preserved_witness :
    (SizeInv list1 ∧ list1.allocationSize ≤ INT_MAX ∧ GrowFits list1) ∧
    (append heap1 list1 5).exit = Exit.returned ∧ SizeInv (append heap1 list1 5).list :=
  have w := (@sizeInv_preserved Int _ _).2.2.2.2.1 heap1 list1 5 ⟨by decide, by decide⟩
    (by decide)
  ⟨⟨⟨by decide, by decide⟩, by decide, growFits_list1⟩, w.2 growFits_list1,
    w.1 (w.2 growFits_list1)⟩

/-- C15 as stated fails: `0 <= size <= allocationSize` holds for the full list of
`2 ^ 30` slots, but `growListIfNeeded`, `append` and `prepend` leave it with
`allocationSize = -2 ^ 31 < size`: the doubled capacity is stored in the member before
`new` throws. -/
theorem sizeInv_broken_by_overflow :
    SizeInv listBig ∧
    ¬ SizeInv (growListIfNeeded heapBig listBig).list ∧
    ¬ SizeInv (append heapBig listBig 5).list ∧
    ¬ SizeInv (prepend heapBig listBig 5).list := by
  have ea : append heapBig listBig 5 = growListIfNeeded heapBig listBig := by
    unfold append
    simp only [growListIfNeeded_listBig]
    rfl
  have ep : prepend heapBig listBig 5 = growListIfNeeded heapBig listBig := by
    rw [prepend_eq]
    simp only [growListIfNeeded_listBig]
    rfl
  have hn : ¬ SizeInv (growListIfNeeded heapBig listBig).list := by
    rw [growListIfNeeded_listBig]
    intro hc
    exact absurd hc.2 (by decide)
  rw [ea, ep]
  exact ⟨⟨by decide, by decide⟩, hn, hn, hn⟩

/-! ## Which slots are read -/

theorem strLoop_reads [Inhabited T] [ToString T] (h : Heap T) (l : CList) (out : String)
    (index : Int) : ∀ i ∈ (strLoop h l out index).2, index ≤ i ∧ i < l.size := by
  unfold strLoop
  split
  · rename_i hlt
    intro i hi
    simp only [List.mem_cons] at hi
    rcases hi with e | hi
    · subst e; exact ⟨le_refl _, hlt⟩
    · have := strLoop_reads h l _ (index + 1) i hi
      omega
  · intro i hi
    simp at hi
termination_by (l.size - index).toNat
decreasing_by omega

theorem eqLoop_reads [Inhabited T] [BEq T] (h : Heap T) (p q : Ptr) (size index : Int) :
    ∀ i ∈ (eqLoop h p q size index).2, index ≤ i ∧ i < size := by
  unfold eqLoop
  split
  · rename_i hlt
    split
    · intro i hi
      simp only [List.mem_singleton] at hi
      subst hi; exact ⟨le_refl _, hlt⟩
    · intro i hi
      simp only [List.mem_cons] at hi
      rcases hi with e | hi
      · subst e; exact ⟨le_refl _, hlt⟩
      · have := eqLoop_reads h p q size (index + 1) i hi
        omega
  · intro i hi
    simp at hi
termination_by (size - index).toNat
decreasing_by omega

theorem growReads_mem [Inhabited T] (h : Heap T) (l : CList) :
    ∀ i ∈ growReads h l, 0 ≤ i ∧ i < l.size := by
  unfold growReads
  split
  · intro i hi
    simp at hi
  · simp only []
    split
    · intro i hi
      simp at hi
    · exact copyLoop_reads _ _ _ _ _ _

/-- After a `growListIfNeeded` that returned, the slots `0, ..., size - 1` are slots
of the live block `values`. -/
theorem growListIfNeeded_inBlock [Inhabited T] (h : Heap T) (l : CList) (hv : Valid h l)
    (hr : l.allocationSize ≤ INT_MAX) (he : (growListIfNeeded h l).exit = Exit.returned) :
    ∀ j, 0 ≤ j → j < (growListIfNeeded h l).list.size →
      (growListIfNeeded h l).heap.inBlock (growListIfNeeded h l).list.values j = true := by
  obtain ⟨hvg, hs, hc, _, _⟩ := growListIfNeeded_spec h l hv hr he
  have h0 := hv.1
  obtain ⟨a, ha, _, hlen⟩ := hvg.values_some (by omega)
  intro j hj0 hj1
  rw [ha]
  exact Heap.inBlock_of_len _ _ _ _ hlen hj0 (by omega)

/-- C17 (fails on the code, by the defect of C5): `str`, `operator==`, the copy
constructor, `growListIfNeeded`, `append` and `concatenate` read the buffer of a list
only at indices in `[0, size)`; `prepend` also reads `values[-1]`: on the empty list
the offsets it reads are `[-1]`, on the full list `[4, 6]` they are `0, 1` (growth)
and `1, 0, -1` (shift loop), and on every list that satisfies the class invariant
`-1` is among them, unless `growListIfNeeded` throws before the shift loop. -/
theorem reads_within_size_except_prepend [Inhabited T] [Elem T] [BEq T] [ToString T] :
    (∀ (h : Heap T) (l : CList), ∀ i ∈ strReads h l, 0 ≤ i ∧ i < l.size) ∧
    (∀ (h : Heap T) (l rhs : CList), ∀ i ∈ opEqReads h l rhs,
      0 ≤ i ∧ i < l.size ∧ i < rhs.size) ∧
    (∀ (h : Heap T) (l : CList), ∀ i ∈ ctorCopyReads h l, 0 ≤ i ∧ i < l.size) ∧
    (∀ (h : Heap T) (l : CList), ∀ i ∈ growReads h l, 0 ≤ i ∧ i < l.size) ∧
    (∀ (h : Heap T) (l : CList), ∀ i ∈ appendReads h l, 0 ≤ i ∧ i < l.size) ∧
    (∀ (h : Heap T) (a b : CList),
      (∀ i ∈ (concatenateReads h a b).1, 0 ≤ i ∧ i < a.size) ∧
      (∀ i ∈ (concatenateReads h a b).2, 0 ≤ i ∧ i < b.size)) ∧
    prependReads heap0 ctorDefault = [-1] ∧
    prependReads heap1 list1 = [0, 1, 1, 0, -1] ∧
    ¬ (∀ i ∈ prependReads heap0 ctorDefault, 0 ≤ i ∧ i < ctorDefault.size) ∧
    (∀ (h : Heap T) (l : CList), Valid h l → l.allocationSize ≤ INT_MAX →
      (growListIfNeeded h l).exit = Exit.badArrayNewLength ∨
        (-1 : Int) ∈ prependReads h l) := by
  have e0 : prependReads heap0 ctorDefault = [-1] := by
    simp [prependReads, growReads, prependShiftReads, growListIfNeeded, ctorDefault,
      shiftLoop, copyLoop, INITIAL_ALLOCATION_SIZE, Heap.new, Heap.alloc, Elem.trivial]
  refine ⟨?_, ?_, ?_, growReads_mem, growReads_mem, ?_, e0, ?_, ?_, ?_⟩
  · intro h l
    exact strLoop_reads h l _ 0
  · intro h l rhs i hi
    unfold opEqReads at hi
    split at hi
    · simp at hi
    · rename_i hs
      have := eqLoop_reads h l.values rhs.values l.size 0 i hi
      have hs2 : l.size = rhs.size := by
        by_contra hc
        exact hs hc
      omega
  · intro h l
    unfold ctorCopyReads
    split
    · intro i hi
      simp at hi
    · exact copyLoop_reads _ _ _ _ _ _
  · intro h a b
    unfold concatenateReads
    split
    · exact ⟨fun i hi => by simp at hi, fun i hi => by simp at hi⟩
    · exact ⟨copyLoop_reads _ _ _ _ _ _, copyLoop_reads _ _ _ _ _ _⟩
  · simp [prependReads, growReads, prependShiftReads, growListIfNeeded, list1,
      shiftLoop, copyLoop, Heap.new, Heap.alloc, wrapInt, Elem.trivial]
  · rw [e0]
    decide
  · intro h l hv hr
    by_cases he : (growListIfNeeded h l).exit = Exit.returned
    · right
      unfold prependReads prependShiftReads
      apply List.mem_append_right
      simp only []
      rw [if_pos he]
      apply shiftLoop_reads
      · rw [growListIfNeeded_size]
        exact hv.1
      · intro j hj0 hj1
        rw [growListIfNeeded_inBlock h l hv hr he j hj0 hj1]
        simp
    · left
      have := growListIfNeeded_exit h l
      rw [this] at he ⊢
      split at he
      · exact absurd rfl he
      · rename_i hlt
        rw [if_neg hlt]
        split at he
        · rename_i hc
          rw [if_pos hc]
        · exact absurd rfl he

/-! ## Whether a buffer is allocated -/

/-- What `concatenate` does whenever `new` accepts the `int` that the sum of the sizes
leaves. -/
theorem concatenate_of_nonneg [Inhabited T] (h : Heap T) (a b : CList)
    (h0 : 0 ≤ wrapInt (a.size + b.size)) :
    concatenate h a b =
      { heap := ((copyLoop
          ((copyLoop (copyLoop (h.alloc (wrapInt (a.size + b.size))).1 (some h.next) 0 a.values
            a.size 0).1 (some h.next) a.size b.values b.size 0).1.alloc
              (wrapInt (a.size + b.size))).1
          (some (h.next + 1)) 0 (some h.next) (wrapInt (a.size + b.size)) 0).1).delete
            (some h.next),
        list :=
          { size := wrapInt (a.size + b.size), allocationSize := wrapInt (a.size + b.size),
            values := some (h.next + 1) },
        exit := Exit.returned } := by
  unfold concatenate ctorArray
  simp only []
  rw [Heap.new_of_nonneg _ _ h0]
  simp only [Heap.alloc_ptr]
  rw [Heap.new_of_nonneg _ _ h0]
  simp [copyLoop_next]

/-- C18 as stated fails: `List(0, values)`, the copy of an empty list and the
concatenation of two empty lists return with `allocationSize == 0` and a buffer
allocated (`new T[0]` returns a block of no slots, not `nullptr`). -/
theorem zero_capacity_with_buffer :
    ((ctorArray heap0 0 none).exit = Exit.returned ∧
      ¬ ((ctorArray heap0 0 none).list.allocationSize = 0 →
        (ctorArray heap0 0 none).list.values = none)) ∧
    ((ctorCopy heap0 ctorDefault).exit = Exit.returned ∧
      ¬ ((ctorCopy heap0 ctorDefault).list.allocationSize = 0 →
        (ctorCopy heap0 ctorDefault).list.values = none)) ∧
    ((concatenate heap0 ctorDefault ctorDefault).exit = Exit.returned ∧
      ¬ ((concatenate heap0 ctorDefault ctorDefault).list.allocationSize = 0 →
        (concatenate heap0 ctorDefault ctorDefault).list.values = none)) := by
  have e1 := ctorArray_eq heap0 0 none (le_refl _)
  have e2 := ctorCopy_eq heap0 ctorDefault (le_refl _)
  have e3 := concatenate_of_nonneg heap0 ctorDefault ctorDefault (by decide)
  refine ⟨?_, ?_, ?_⟩
  · rw [e1]
    exact ⟨rfl, fun hc => by cases hc rfl⟩
  · rw [e2]
    exact ⟨rfl, fun hc => by cases hc rfl⟩
  · rw [e3]
    exact ⟨rfl, fun hc => by cases hc rfl⟩

/-- C18, amended: only the default-constructed list has no buffer, and its
`allocationSize` is 0.  `List(n, values)` with `n >= 0` and the copy constructor on a
list with `allocationSize >= 0` return, and `concatenate` returns unless the sum of
the sizes leaves `int`; their result has a buffer, a live block of exactly
`allocationSize` slots, also when `allocationSize` is 0.  `growListIfNeeded`,
`append` and `prepend`, when they return on a list that satisfies the class
invariant, leave a list with `allocationSize > 0` and a buffer; they return when the
growth fits in `int` (`size < allocationSize` or `2 * allocationSize <= INT_MAX`;
for `prepend`, with a trivially copyable element type). -/
theorem buffer_allocated [Inhabited T] [Elem T] :
    (ctorDefault.allocationSize = 0 ∧ ctorDefault.values = none) ∧
    (∀ (h : Heap T) (n : Int) (src : Ptr), 0 ≤ n →
      (ctorArray h n src).exit = Exit.returned ∧
      (ctorArray h n src).list.values = some h.next ∧
      (ctorArray h n src).heap.len h.next = some (ctorArray h n src).list.allocationSize) ∧
    (∀ (h : Heap T) (l : CList), 0 ≤ l.allocationSize →
      (ctorCopy h l).exit = Exit.returned ∧
      (ctorCopy h l).list.values = some h.next ∧
      (ctorCopy h l).heap.len h.next = some (ctorCopy h l).list.allocationSize) ∧
    (∀ (h : Heap T) (a b : CList),
      (0 ≤ a.size + b.size → a.size + b.size ≤ INT_MAX →
        (concatenate h a b).exit = Exit.returned) ∧
      ((concatenate h a b).exit = Exit.returned →
        (concatenate h a b).list.values = some (h.next + 1) ∧
        (concatenate h a b).heap.len (h.next + 1) =
          some (concatenate h a b).list.allocationSize)) ∧
    (∀ (h : Heap T) (l : CList), Valid h l → l.allocationSize ≤ INT_MAX →
      (GrowFits l → (growListIfNeeded h l).exit = Exit.returned) ∧
      ((growListIfNeeded h l).exit = Exit.returned →
        0 < (growListIfNeeded h l).list.allocationSize ∧
        (growListIfNeeded h l).list.values ≠ none)) ∧
    (∀ (h : Heap T) (l : CList) (v : T), Valid h l → l.allocationSize ≤ INT_MAX →
      (GrowFits l → (append h l v).exit = Exit.returned) ∧
      ((append h l v).exit = Exit.returned →
        0 < (append h l v).list.allocationSize ∧ (append h l v).list.values ≠ none)) ∧
    (∀ (h : Heap T) (l : CList) (v : T), Valid h l → l.allocationSize ≤ INT_MAX →
      (GrowFits l → Elem.trivial T = true → (prepend h l v).exit = Exit.returned) ∧
      ((prepend h l v).exit = Exit.returned →
        0 < (prepend h l v).list.allocationSize ∧ (prepend h l v).list.values ≠ none)) := by
  have hg : ∀ (h : Heap T) (l : CList), Valid h l → l.allocationSize ≤ INT_MAX →
      (growListIfNeeded h l).exit = Exit.returned →
      0 < (growListIfNeeded h l).list.allocationSize ∧
      (growListIfNeeded h l).list.values ≠ none := by
    intro h l hv hr he
    obtain ⟨hvg, hs, hc, _⟩ := growListIfNeeded_spec h l hv hr he
    have h0 := hv.1
    have hpos : 0 < (growListIfNeeded h l).list.allocationSize := by omega
    obtain ⟨a, ha, _⟩ := hvg.values_some hpos
    exact ⟨hpos, by rw [ha]; simp⟩
  refine ⟨⟨rfl, rfl⟩, ?_, ?_, ?_, ?_, ?_, ?_⟩
  · intro h n src hn
    rw [ctorArray_eq h n src hn]
    refine ⟨rfl, rfl, ?_⟩
    simp [copyLoop_len, Heap.alloc_len]
  · intro h l hl
    rw [ctorCopy_eq h l hl]
    refine ⟨rfl, rfl, ?_⟩
    simp [copyLoop_len, Heap.alloc_len]
  · intro h a b
    constructor
    · intro h0 hs
      exact (concatenate_list h a b h0 hs).1
    · intro he
      by_cases hc : wrapInt (a.size + b.size) < 0
      · rw [concatenate_throws h a b hc] at he
        cases he
      · rw [concatenate_of_nonneg h a b (by omega)]
        refine ⟨rfl, ?_⟩
        simp [Heap.delete_len, copyLoop_len, copyLoop_next, Heap.alloc_len]
  · intro h l hv hr
    exact ⟨growListIfNeeded_returns h l (le_trans hv.1 hv.2.1), hg h l hv hr⟩
  · intro h l v hv hr
    refine ⟨append_returns h l v (le_trans hv.1 hv.2.1), ?_⟩
    intro he
    by_cases hgr : (growListIfNeeded h l).exit = Exit.returned
    · have e : (append h l v).list = { (growListIfNeeded h l).list with
          size := wrapInt ((growListIfNeeded h l).list.size + 1) } := by
        unfold append
        simp only []
        rw [if_pos hgr]
      rw [e]
      exact hg h l hv hr hgr
    · have e : append h l v = growListIfNeeded h l := by
        unfold append
        simp only []
        rw [if_neg hgr]
      rw [e] at he
      exact absurd he hgr
  · intro h l v hv hr
    refine ⟨prepend_returns h l v (le_trans hv.1 hv.2.1), ?_⟩
    intro he
    rw [prepend_eq] at he ⊢
    by_cases hgr : (growListIfNeeded h l).exit = Exit.returned
    · rw [if_pos hgr] at he ⊢
      split
      · rename_i hc2
        rw [if_pos hc2] at he
        cases he
      · exact hg h l hv hr hgr
    · rw [if_neg hgr] at he
      exact absurd he hgr

/-- C18, amended, at a concrete input: `append(5)` on the full list `[4, 6]` of
capacity 2. -/
theorem buffer_allocated_witness :
    (Valid heap1 list1 ∧ list1.allocationSize ≤ INT_MAX ∧ GrowFits list1) ∧
    (append heap1 list1 5).exit = Exit.returned ∧
    0 < (append heap1 list1 5).list.allocationSize ∧
    (append heap1 list1 5).list.values ≠ none :=
  have w := (@buffer_allocated Int _ _).2.2.2.2.2.1 heap1 list1 5 valid_heap1_list1
    (by decide)
  ⟨⟨valid_heap1_list1, by decide, growFits_list1⟩, w.1 growFits_list1,
    w.2 (w.1 growFits_list1)⟩

/-! ## The capacity reached by appending -/

/-- C19: after `n ≥ 1` calls of `append` on a default-constructed list, with no
`2 * allocationSize` leaving `int` on the way (`n <= 1342177280`: machine-integer
overflow is set aside), the `allocationSize` is the least number of the form
`10 * 2 ^ k` that is `≥ n` (10 for `n ≤ 10`, 20 for `11 ≤ n ≤ 20`, 40 for
`21 ≤ n ≤ 40`); it is below `2 * max(n, 10)`, and one more `append` in that range does
not decrease it. -/
theorem appendAll_capacity [Inhabited T] (h : Heap T) (xs : List T) (hn : 1 ≤ xs.length)
    (hm : xs.length ≤ INSERT_LIMIT) :
    (appendAll (start h ctorDefault) xs).exit = Exit.returned ∧
    (∃ k : Nat, (appendAll (start h ctorDefault) xs).list.allocationSize = 10 * 2 ^ k) ∧
    (xs.length : Int) ≤ (appendAll (start h ctorDefault) xs).list.allocationSize ∧
    (∀ j : Nat, (xs.length : Int) ≤ 10 * 2 ^ j →
      (appendAll (start h ctorDefault) xs).list.allocationSize ≤ 10 * 2 ^ j) ∧
    (xs.length ≤ 10 → (appendAll (start h ctorDefault) xs).list.allocationSize = 10) ∧
    (11 ≤ xs.length → xs.length ≤ 20 →
      (appendAll (start h ctorDefault) xs).list.allocationSize = 20) ∧
    (21 ≤ xs.length → xs.length ≤ 40 →
      (appendAll (start h ctorDefault) xs).list.allocationSize = 40) ∧
    (appendAll (start h ctorDefault) xs).list.allocationSize < 2 * max (xs.length : Int) 10 ∧
    ∀ x : T, xs.length + 1 ≤ INSERT_LIMIT →
      (appendAll (start h ctorDefault) xs).list.allocationSize ≤
        (appendAll (start h ctorDefault) (xs ++ [x])).list.allocationSize := by
  obtain ⟨he, hv, hx, hc⟩ := insertInv_appendAll_start h xs hm
  have hsz : (appendAll (start h ctorDefault) xs).list.size = xs.length := hx.1
  have hci : CapInv (appendAll (start h ctorDefault) xs).list := by
    rcases hc with ⟨z, _⟩ | hc
    · rw [hsz] at z
      omega
    · exact hc
  obtain ⟨⟨k, hk⟩, hleast, hlt⟩ := capInv_least _ hci
  rw [hsz] at hleast hlt
  have hle : (xs.length : Int) ≤ (appendAll (start h ctorDefault) xs).list.allocationSize := by
    obtain ⟨_, _, _, h2, _⟩ := hci
    rw [hsz] at h2
    exact h2
  have hpos : (1 : Int) ≤ 2 ^ k := by
    have : (0 : Int) < 2 ^ k := by positivity
    omega
  have hk2 : 1 ≤ k → (2 : Int) ≤ 2 ^ k := by
    intro h1
    have : (2 : Int) ^ 1 ≤ 2 ^ k := pow_le_pow_right₀ (by norm_num) h1
    simpa using this
  have hk4 : 2 ≤ k → (4 : Int) ≤ 2 ^ k := by
    intro h1
    have : (2 : Int) ^ 2 ≤ 2 ^ k := pow_le_pow_right₀ (by norm_num) h1
    simpa using this
  refine ⟨he, ⟨k, hk⟩, hle, hleast, ?_, ?_, ?_, hlt, ?_⟩
  · intro h10
    have := hleast 0 (by simp; omega)
    simp only [pow_zero, mul_one] at this
    omega
  · intro h11 h20
    have := hleast 1 (by simp; omega)
    simp only [pow_one] at this
    rcases Nat.lt_or_ge k 1 with hk0 | hk1
    · have : k = 0 := by omega
      subst this
      simp only [pow_zero, mul_one] at hk
      omega
    · have := hk2 hk1
      omega
  · intro h21 h40
    have := hleast 2 (by norm_num; omega)
    norm_num at this
    rcases Nat.lt_or_ge k 2 with hk0 | hk1
    · interval_cases k
      · simp only [pow_zero, mul_one] at hk
        omega
      · simp only [pow_one] at hk
        omega
    · have := hk4 hk1
      omega
  · intro x hx1
    rw [appendAll_append, appendAll_singleton _ _ he]
    have hf : GrowFits (appendAll (start h ctorDefault) xs).list :=
      growFits_of_capInv _ (Or.inr hci) (by rw [hsz]; exact_mod_cast hx1)
    obtain ⟨_, _, _, e4, _⟩ := append_facts _ _ x hv hf
    rw [e4]
    have h0 := hv.1
    split
    · exact le_refl _
    · split <;> omega

/-- C19 at a concrete input: eleven values appended. -/
theorem appendAll_capacity_witness :
    (1 ≤ ([1, 2, 3, 4, 5, 6, 7, 8, 9, 10, 11] : List Int).length ∧
      ([1, 2, 3, 4, 5, 6, 7, 8, 9, 10, 11] : List Int).length ≤ INSERT_LIMIT) ∧
    (appendAll (start heap0 ctorDefault) [1, 2, 3, 4, 5, 6, 7, 8, 9, 10, 11]).exit =
      Exit.returned ∧
    (∃ k : Nat, (appendAll (start heap0 ctorDefault)
      [1, 2, 3, 4, 5, 6, 7, 8, 9, 10, 11]).list.allocationSize = 10 * 2 ^ k) ∧
    (([1, 2, 3, 4, 5, 6, 7, 8, 9, 10, 11] : List Int).length : Int) ≤
      (appendAll (start heap0 ctorDefault)
        [1, 2, 3, 4, 5, 6, 7, 8, 9, 10, 11]).list.allocationSize ∧
    (appendAll (start heap0 ctorDefault)
      [1, 2, 3, 4, 5, 6, 7, 8, 9, 10, 11]).list.allocationSize = 20 :=
  have w := appendAll_capacity heap0 ([1, 2, 3, 4, 5, 6, 7, 8, 9, 10, 11] : List Int)
    (by decide) (by decide)
  ⟨⟨by decide, by decide⟩, w.1, w.2.1, w.2.2.1, w.2.2.2.2.2.1 (by decide) (by decide)⟩

/-! ## Concatenation and equality -/

theorem holds_contents [Inhabited T] (h : Heap T) (l : CList) (h0 : 0 ≤ l.size) :
    Holds h l (contents h l) := by
  unfold Holds contents
  refine ⟨by simp; omega, ?_⟩
  intro i hi
  simp at hi
  simp [hi]

theorem holds_opEq [Inhabited T] [BEq T] (h : Heap T) (a b : CList) (xs : List T)
    (hrefl : ∀ x : T, (x == x) = true) (ha : Holds h a xs) (hb : Holds h b xs) :
    opEq h a b = true := by
  unfold opEq
  have hs : a.size = b.size := by rw [ha.1, hb.1]
  simp only [hs, ne_eq, not_true_eq_false, if_false]
  rw [eqLoop_true_iff]
  intro i hi0 hi1
  have e : ((i.toNat : Nat) : Int) = i := by omega
  have h1 := ha.2 i.toNat (by have := hb.1; omega)
  have h2 := hb.2 i.toNat (by have := hb.1; omega)
  rw [h1, e] at h2
  rw [Option.some.inj h2]
  exact hrefl _

theorem concatenate_holds [Inhabited T] (h : Heap T) (a b : CList) (xs ys : List T)
    (ha : Valid h a) (hb : Valid h b) (hs : a.size + b.size ≤ INT_MAX) (hxa : Holds h a xs)
    (hxb : Holds h b ys) :
    Holds (concatenate h a b).heap (concatenate h a b).list (xs ++ ys) := by
  have ha0 := ha.1
  have hb0 := hb.1
  have hl := (concatenate_list h a b (by omega) hs).2
  have hval : (concatenate h a b).list.values = some (h.next + 1) := by rw [hl]
  have hsz : (concatenate h a b).list.size = a.size + b.size := by rw [hl]
  obtain ⟨sa, ea⟩ := hxa
  obtain ⟨sb, eb⟩ := hxb
  refine ⟨by rw [hsz, sa, sb]; simp, ?_⟩
  intro i hi
  simp only [List.length_append] at hi
  rw [hval, Heap.rd_some, concatenate_cell h a b ha hb hs]
  have h1 : (0 : Int) ≤ i ∧ (i : Int) < a.size + b.size := by omega
  simp only [true_and, h1, and_self, if_true]
  by_cases hia : i < xs.length
  · have : (i : Int) < a.size := by omega
    rw [if_pos this, List.getElem?_append_left hia, ea i hia]
  · have : ¬ (i : Int) < a.size := by omega
    have hge : xs.length ≤ i := by omega
    have e : (i : Int) - a.size = ((i - xs.length : Nat) : Int) := by omega
    rw [if_neg this, List.getElem?_append_right hge, eb (i - xs.length) (by omega), e]

theorem holds_frame [Inhabited T] {h k : Heap T} {l : CList} {xs : List T}
    (hx : Holds h l xs) (hr : ∀ i, k.rd l.values i = h.rd l.values i) : Holds k l xs :=
  ⟨hx.1, fun i hi => by rw [hr]; exact hx.2 i hi⟩

/-- C20, amended: with respect to `operator==`, and for an element type whose
equality is reflexive, `concatenate` is associative on lists that satisfy the class
invariant and whose sizes sum to an `int` (`a.size + b.size + c.size <= INT_MAX`): the
four calls return and the comparison gives `true`; and the default-constructed list
is its identity on both sides, for every list whose size is an `int`. -/
theorem concatenate_assoc_identity [Inhabited T] [BEq T] (h : Heap T) (a b c : CList)
    (hrefl : ∀ x : T, (x == x) = true) (ha : Valid h a) (hb : Valid h b) (hc : Valid h c) :
    (a.size + b.size + c.size ≤ INT_MAX → concatAssocTest h a b c = some true) ∧
    (a.size ≤ INT_MAX → concatRightIdentityTest h a = some true) ∧
    (a.size ≤ INT_MAX → concatLeftIdentityTest h a = some true) := by
  have xa := holds_contents h a ha.1
  have xb := holds_contents h b hb.1
  have xc := holds_contents h c hc.1
  have he : Valid h ctorDefault := valid_ctorDefault h
  have ha0 := ha.1
  have hb0 := hb.1
  have hc0 := hc.1
  refine ⟨?_, ?_, ?_⟩
  · intro hs
    have s1 : a.size + b.size ≤ INT_MAX := by omega
    -- first concatenation: a ++ b
    obtain ⟨r1, l1⟩ := concatenate_list h a b (by omega) s1
    have z1 : (concatenate h a b).list.size = a.size + b.size := by rw [l1]
    have v1 := concatenate_valid h a b ha.sizeInv hb.sizeInv s1
    have x1 := concatenate_holds h a b _ _ ha hb s1 xa xb
    obtain ⟨va1, ra1⟩ := concatenate_frame h a b ha hb s1 a ha
    obtain ⟨vb1, rb1⟩ := concatenate_frame h a b ha hb s1 b hb
    obtain ⟨vc1, rc1⟩ := concatenate_frame h a b ha hb s1 c hc
    have xa1 := holds_frame xa ra1
    have xb1 := holds_frame xb rb1
    have xc1 := holds_frame xc rc1
    -- second: (a ++ b) ++ c
    have s2 : (concatenate h a b).list.size + c.size ≤ INT_MAX := by rw [z1]; exact hs
    obtain ⟨r2, _⟩ := concatenate_list (concatenate h a b).heap (concatenate h a b).list c
      (by rw [z1]; omega) s2
    have v2 := concatenate_valid (concatenate h a b).heap (concatenate h a b).list c v1.sizeInv
      vc1.sizeInv s2
    have x2 := concatenate_holds _ _ _ _ _ v1 vc1 s2 x1 xc1
    obtain ⟨va2, ra2⟩ := concatenate_frame _ _ _ v1 vc1 s2 a va1
    obtain ⟨vb2, rb2⟩ := concatenate_frame _ _ _ v1 vc1 s2 b vb1
    obtain ⟨vc2, rc2⟩ := concatenate_frame _ _ _ v1 vc1 s2 c vc1
    have xa2 := holds_frame xa1 ra2
    have xb2 := holds_frame xb1 rb2
    have xc2 := holds_frame xc1 rc2
    -- third: b ++ c
    have s3 : b.size + c.size ≤ INT_MAX := by omega
    obtain ⟨r3, l3⟩ := concatenate_list
      (concatenate (concatenate h a b).heap (concatenate h a b).list c).heap b c (by omega) s3
    have z3 : (concatenate (concatenate (concatenate h a b).heap (concatenate h a b).list
        c).heap b c).list.size = b.size + c.size := by rw [l3]
    have v3 := concatenate_valid
      (concatenate (concatenate h a b).heap (concatenate h a b).list c).heap b c vb2.sizeInv
      vc2.sizeInv s3
    have x3 := concatenate_holds _ _ _ _ _ vb2 vc2 s3 xb2 xc2
    obtain ⟨va3, ra3⟩ := concatenate_frame _ _ _ vb2 vc2 s3 a va2
    obtain ⟨v23, r23⟩ := concatenate_frame _ _ _ vb2 vc2 s3 _ v2
    have xa3 := holds_frame xa2 ra3
    have x23 := holds_frame x2 r23
    -- fourth: a ++ (b ++ c)
    have s4 : a.size + (concatenate (concatenate (concatenate h a b).heap
        (concatenate h a b).list c).heap b c).list.size ≤ INT_MAX := by rw [z3]; omega
    obtain ⟨r4, _⟩ := concatenate_list
      (concatenate (concatenate (concatenate h a b).heap (concatenate h a b).list c).heap b
        c).heap a
      (concatenate (concatenate (concatenate h a b).heap (concatenate h a b).list c).heap b
        c).list (by rw [z3]; omega) s4
    have x4 := concatenate_holds _ _ _ _ _ va3 v3 s4 xa3 x3
    obtain ⟨_, r24⟩ := concatenate_frame _ _ _ va3 v3 s4 _ v23
    have x24 := holds_frame x23 r24
    rw [List.append_assoc] at x24
    have hq := holds_opEq _ _ _ _ hrefl x24 x4
    unfold concatAssocTest
    simp only []
    rw [if_pos r1, if_pos r2, if_pos r3, if_pos r4, hq]
  · intro hs
    have s1 : a.size + ctorDefault.size ≤ INT_MAX := by
      show a.size + 0 ≤ INT_MAX
      omega
    have r1 := (concatenate_list h a ctorDefault (by show 0 ≤ a.size + 0; omega) s1).1
    have x1 := concatenate_holds h a ctorDefault _ _ ha he s1 xa (holds_ctorDefault h)
    rw [List.append_nil] at x1
    obtain ⟨_, ra1⟩ := concatenate_frame h a ctorDefault ha he s1 a ha
    have hq := holds_opEq _ _ _ _ hrefl x1 (holds_frame xa ra1)
    unfold concatRightIdentityTest
    simp only []
    rw [if_pos r1, hq]
  · intro hs
    have s1 : ctorDefault.size + a.size ≤ INT_MAX := by
      show 0 + a.size ≤ INT_MAX
      omega
    have r1 := (concatenate_list h ctorDefault a (by show 0 ≤ 0 + a.size; omega) s1).1
    have x1 := concatenate_holds h ctorDefault a _ _ he ha s1 (holds_ctorDefault h) xa
    rw [List.nil_append] at x1
    obtain ⟨_, ra1⟩ := concatenate_frame h ctorDefault a he ha s1 a ha
    have hq := holds_opEq _ _ _ _ hrefl x1 (holds_frame xa ra1)
    unfold concatLeftIdentityTest
    simp only []
    rw [if_pos r1, hq]

/-- C20, amended, at a concrete input: the lists `[4, 6]`, `[9]` and `[4, 6]` of
`heap1`. -/
theorem concatenate_assoc_identity_witness :
    (Valid heap1 list1 ∧ Valid heap1 list9 ∧
      list1.size + list9.size + list1.size ≤ INT_MAX) ∧
    concatAssocTest heap1 list1 list9 list1 = some true ∧
    concatRightIdentityTest heap1 list1 = some true ∧
    concatLeftIdentityTest heap1 list1 = some true :=
  have w := concatenate_assoc_identity heap1 list1 list9 list1 (fun x => by simp)
    valid_heap1_list1 valid_heap1_list9 valid_heap1_list1
  ⟨⟨valid_heap1_list1, valid_heap1_list9, by decide⟩, w.1 (by decide), w.2.1 (by decide),
    w.2.2 (by decide)⟩

/-- C20 as stated fails: for `a = b` the full list of `2 ^ 30` elements and `c` the
empty list, `a.concatenate(b)` throws (`a.size + b.size` leaves `int`), so the
comparison `(a.concatenate(b)).concatenate(c) == a.concatenate(b.concatenate(c))` is
never made and is not `true`. -/
theorem concatenate_assoc_overflow :
    Valid heapBig listBig ∧ Valid heapBig ctorDefault ∧
    (concatenate heapBig listBig listBig).exit = Exit.badArrayNewLength ∧
    concatAssocTest heapBig listBig listBig ctorDefault = none ∧
    ¬ (concatAssocTest heapBig listBig listBig ctorDefault = some true) := by
  have e : concatAssocTest heapBig listBig listBig ctorDefault = none := by
    unfold concatAssocTest
    simp only [concatenate_listBig]
    rfl
  rw [e, concatenate_listBig]
  exact ⟨valid_heapBig_listBig, valid_ctorDefault _, rfl, rfl, fun hc => by cases hc⟩

end ListADT
